import Mathlib

/-!
# Verification of the route-planning core (OpenStreetMap A* route planner)

Shallow embedding of the map data model, the road-network index, neighbor
discovery, nearest-node lookup and the A* path search of the
CppND-Route-Planning project, together with proofs of the specification
claims about them.

The repository ships the class declarations (`model.h`, `route_model.h`,
`route_planner.h`) and the entry point (`main.cpp`); the implementation
translation units of `Model`, `RouteModel` and `RoutePlanner` are not part
of the source tree, so their bodies are modelled from the specification
(each such definition carries a doc comment starting `Modelled from the
spec:`).  Floating-point values are idealized as rationals (coordinates)
and reals (Euclidean distances).
-/

/-- `Model::Node` (model.h): a point with two normalized coordinates. -/
structure MNode where
  x : ℚ
  y : ℚ
deriving DecidableEq, Repr

instance : Inhabited MNode := ⟨⟨0, 0⟩⟩

/-- `Model::Way` (model.h): an ordered list of node indices. -/
structure Way where
  nodes : List Nat
deriving DecidableEq, Repr

instance : Inhabited Way := ⟨⟨[]⟩⟩

/-- `Model::Road::Type` (model.h): road classification. -/
inductive RoadType
  | Invalid | Unclassified | Service | Residential
  | Tertiary | Secondary | Primary | Trunk | Motorway | Footway
deriving DecidableEq, Repr

/-- `Model::Road` (model.h): a way index plus a classification. -/
structure Road where
  way : Nat
  type : RoadType
deriving DecidableEq, Repr

/-- The Geo-Feature Store (`Model`, model.h): the parts of the parsed map
that the route-planning claims depend on — nodes, ways, roads and the
metric scale factor recorded at load time. -/
structure Model where
  nodes : List MNode
  ways : List Way
  roads : List Road
  metricScale : ℚ
deriving DecidableEq, Repr

/-- The node list of the way with index `wi` (empty for an out-of-range
index, mirroring that such roads contribute nothing). -/
def wayNodes (m : Model) (wi : Nat) : List Nat :=
  (m.ways.getD wi default).nodes

/-- Well-formedness of a store as the parser guarantees it (spec §4.1:
records referencing out-of-range point indices are dropped): every node
index occurring in a road's way is a valid index into the node list. -/
def wfB (m : Model) : Bool :=
  m.roads.all fun r => (wayNodes m r.way).all fun p => p < m.nodes.length

def WF (m : Model) : Prop := wfB m = true

instance (m : Model) : Decidable (WF m) :=
  inferInstanceAs (Decidable (wfB m = true))

/-- Two node indices occupy consecutive positions (in either order) in the
list `l`. -/
def listAdj (l : List Nat) (i j : Nat) : Bool :=
  (l.zip l.tail).any fun p => (p.1 = i && p.2 = j) || (p.1 = j && p.2 = i)

/-- Road-graph adjacency: `i` and `j` are consecutive on some road's way.
This is the edge relation of the search graph (spec §3: roads are the only
paths eligible to form the search graph's edges). -/
def adjB (m : Model) (i j : Nat) : Bool :=
  m.roads.any fun r => listAdj (wayNodes m r.way) i j

def Adj (m : Model) (i j : Nat) : Prop := adjB m i j = true

instance (m : Model) (i j : Nat) : Decidable (Adj m i j) :=
  inferInstanceAs (Decidable (adjB m i j = true))

/-- Modelled from the spec: `RouteModel::CreateNodeToRoadHashmap`
(route_model.cpp is not in the source tree).  The Road Network Index maps
each point index to the list of (indices of) roads whose path visits that
point, in road order (spec §4.3); lookup of a point touching no road
yields the empty list. -/
def node_to_road (m : Model) (p : Nat) : List Nat :=
  (List.range m.roads.length).filter fun ri =>
    p ∈ wayNodes m ((m.roads.getD ri ⟨0, .Invalid⟩).way)

/-- A point index is road-connected when its Road Network Index entry is
non-empty. -/
def roadConnectedB (m : Model) (p : Nat) : Bool :=
  !(node_to_road m p).isEmpty

def RoadConnected (m : Model) (p : Nat) : Prop := roadConnectedB m p = true

instance (m : Model) (p : Nat) : Decidable (RoadConnected m p) :=
  inferInstanceAs (Decidable (roadConnectedB m p = true))

/-- The neighbor candidates of `c` contributed by one way: for every
occurrence of `c` in the list, the predecessor and successor indices
(spec §4.4 step 2). -/
def neighborsInWay (l : List Nat) (c : Nat) : List Nat :=
  (l.zip l.tail).flatMap fun p =>
    (if p.1 = c then [p.2] else []) ++ (if p.2 = c then [p.1] else [])

/-- Modelled from the spec: candidate neighbor indices of `c`, gathered
from every road passing through `c` per the Road Network Index
(`RouteModel::Node::FindNeighbor`, route_model.cpp not in the source
tree). -/
def neighborCandidates (m : Model) (c : Nat) : List Nat :=
  (node_to_road m c).flatMap fun ri =>
    neighborsInWay (wayNodes m ((m.roads.getD ri ⟨0, .Invalid⟩).way)) c

/-- Modelled from the spec: `RouteModel::Node::FindNeighbors`
(route_model.cpp not in the source tree).  Populates the adjacency set of
`c` with the candidate indices, skipping self and skipping
already-visited nodes (spec §4.4 step 3). -/
def findNeighborsOf (m : Model) (vis : Nat → Bool) (c : Nat) : List Nat :=
  (neighborCandidates m c).filter fun v => v ≠ c && !(vis v)

/-- Squared Euclidean distance between two points, in rational
unit-square coordinates. -/
def sqDist (a b : MNode) : ℚ :=
  (a.x - b.x) ^ 2 + (a.y - b.y) ^ 2

/-- The node stored at index `i` (default-node out of range). -/
def nodeAt (m : Model) (i : Nat) : MNode :=
  m.nodes.getD i default

/-- Modelled from the spec: `RouteModel::FindClosestNode` (route_model.cpp
not in the source tree).  Scans all nodes with a non-empty Road Network
Index entry in index order and returns the one minimizing Euclidean
distance to the query coordinate; ties broken by first-encountered order
(spec §4.4).  Returns `none` when no road-connected point exists.
Comparison is by squared distance, which orders identically to Euclidean
distance. -/
def findClosestNode (m : Model) (q : MNode) : Option Nat :=
  ((List.range m.nodes.length).filter (roadConnectedB m)).foldl
    (fun acc i =>
      match acc with
      | none => some i
      | some j => if sqDist (nodeAt m i) q < sqDist (nodeAt m j) q then some i else acc)
    none

/-- The largest finite value of a 32-bit IEEE float,
`std::numeric_limits<float>::max()`, as an exact rational. -/
def floatMax : ℚ := 2 ^ 128 - 2 ^ 104

/-- `RouteModel::Node` (route_model.h lines 39–43): a point augmented with
the mutable A* search fields and their member initializers.  Parent and
neighbor pointers are embedded as node indices. -/
structure RMNode where
  x : ℚ
  y : ℚ
  parent : Option Nat := none
  h_value : ℚ := floatMax
  g_value : ℚ := 0
  visited : Bool := false
  neighbors : List Nat := []
deriving DecidableEq, Repr

/-- Modelled from the spec: the reset of the Search Node layer between
independent searches (spec §5: "visited=false, g=0, h=+∞,
predecessor=none, neighbors cleared"). -/
def resetNode (n : RMNode) : RMNode :=
  { n with parent := none, h_value := floatMax, g_value := 0,
           visited := false, neighbors := [] }

/-! ## The A* search (Path Finder)

The search state mirrors the mutable per-node fields of
`RouteModel::Node` (parent, `g_value`, `h_value`, `visited`) as explicit
state passing, plus the planner's `open_list` (route_planner.h line 93).
The algorithm is generic in the ordered cost type `α`; the Path Finder
instantiates it with real-valued Euclidean costs. -/

/-- The mutable search state: best-predecessor, cost-from-start `g`,
heuristic `h`, visited flag per node index, and the open list. -/
structure SState (α : Type) where
  par : Nat → Option Nat
  gv : Nat → α
  hv : Nat → α
  vis : Nat → Bool
  openL : List Nat

variable {α : Type} [LinearOrderedCancelAddCommMonoid α]

/-- `f = g + h`, the A* priority of a node. -/
def fval (st : SState α) (v : Nat) : α := st.gv v + st.hv v

/-- Modelled from the spec: `RoutePlanner::NextNode` (route_planner.cpp
not in the source tree).  Selects and removes the open-set member
minimizing `f`; among ties the first in insertion order is chosen
(spec §4.5 step 2). -/
def popMin (f : Nat → α) : List Nat → Option (Nat × List Nat)
  | [] => none
  | x :: xs =>
    match popMin f xs with
    | none => some (x, [])
    | some (y, ys) => if f x ≤ f y then some (x, xs) else some (y, x :: ys)

/-- Modelled from the spec: the relaxation of one neighbor `v` of the
just-closed node `c` (spec §4.5 step 5): compute the tentative cost
`g' = g c + w c v`; if `v` is unseen (not in the open set) insert it with
`g'`, heuristic `hf v` and predecessor `c`; if it is already open and
`g'` improves on its cost, update cost and predecessor. -/
def relax (w : Nat → Nat → α) (hf : Nat → α) (c : Nat) (st : SState α) (v : Nat) :
    SState α :=
  let g' := st.gv c + w c v
  if v ∈ st.openL then
    if g' < st.gv v then
      { st with gv := Function.update st.gv v g',
                par := Function.update st.par v (some c) }
    else st
  else
    { st with gv := Function.update st.gv v g',
              hv := Function.update st.hv v (hf v),
              par := Function.update st.par v (some c),
              openL := st.openL ++ [v] }

/-- Modelled from the spec: `RoutePlanner::AddNeighbors` (route_planner.cpp
not in the source tree).  Runs neighbor discovery on the closed node `c`
and relaxes every discovered neighbor. -/
def expand (m : Model) (w : Nat → Nat → α) (hf : Nat → α) (c : Nat) (st : SState α) :
    SState α :=
  (findNeighborsOf m st.vis c).foldl (relax w hf c) st

/-- Removing `c` from the open list and marking it closed
(spec §4.5 step 3). -/
def closeNode (st : SState α) (c : Nat) (rest : List Nat) : SState α :=
  { st with openL := rest, vis := Function.update st.vis c true }

/-- Walking the best-predecessor relation backward from `v` (the
backward half of `RoutePlanner::ConstructFinalPath`); `fuel` bounds the
walk by the number of nodes. -/
def parentWalk (par : Nat → Option Nat) : Nat → Nat → List Nat
  | 0, v => [v]
  | fuel + 1, v =>
    match par v with
    | none => [v]
    | some u => v :: parentWalk par fuel u

/-- The length of a path: the sum of the edge costs between consecutive
nodes. -/
def pathLen (w : Nat → Nat → α) : List Nat → α
  | [] => 0
  | [_] => 0
  | u :: v :: rest => w u v + pathLen w (v :: rest)

/-- Modelled from the spec: `RoutePlanner::ConstructFinalPath`
(route_planner.cpp not in the source tree).  Walks best-predecessor
relations backward from the goal, reverses the walk so the sequence runs
start → goal, and accumulates the distance between consecutive nodes
(spec §4.5, path reconstruction). -/
def constructFinalPath (w : Nat → Nat → α) (par : Nat → Option Nat) (fuel goal : Nat) :
    List Nat × α :=
  let p := (parentWalk par fuel goal).reverse
  (p, pathLen w p)

/-- The outcome of a search: no path, or a path with its accumulated
distance; `fuelOut` is the artificial out-of-budget case, proved
unreachable under the budget `nodes + 1`. -/
inductive Outcome (α : Type) where
  | noPath
  | found (p : List Nat) (d : α)
  | fuelOut
deriving DecidableEq

/-- Modelled from the spec: the A* main loop of `RoutePlanner::AStarSearch`
(route_planner.cpp not in the source tree), spec §4.5 steps 2–6:
while the open set is non-empty, pop the minimum-`f` node, close it;
if it is the goal reconstruct the path, otherwise expand it. -/
def aStarLoop (m : Model) (w : Nat → Nat → α) (hf : Nat → α) (goal : Nat) :
    Nat → SState α → Outcome α
  | 0, _ => .fuelOut
  | fuel + 1, st =>
    match popMin (fval st) st.openL with
    | none => .noPath
    | some (c, rest) =>
      let st1 := closeNode st c rest
      if c = goal then
        let r := constructFinalPath w st1.par m.nodes.length goal
        .found r.1 r.2
      else
        aStarLoop m w hf goal fuel (expand m w hf c st1)

/-- The initial search state (spec §4.5 step 1): every node unvisited with
`g = 0`, heuristic defaulted to `h₀`, no predecessor; the start node's
heuristic is computed and the start node is pushed to the open set. -/
def initState (h₀ : α) (hf : Nat → α) (start : Nat) : SState α :=
  { par := fun _ => none
    gv := fun _ => 0
    hv := Function.update (fun _ => h₀) start (hf start)
    vis := fun _ => false
    openL := [start] }

/-- The generic A* search with the iteration budget `nodes + 1` that the
closed-set invariant makes sufficient. -/
def aStar (m : Model) (w : Nat → Nat → α) (hf : Nat → α) (h₀ : α) (start goal : Nat) :
    Outcome α :=
  aStarLoop m w hf goal (m.nodes.length + 1) (initState h₀ hf start)

/-! ## The Euclidean instantiation -/

/-- Euclidean distance between two points of the normalized coordinate
space (`RouteModel::Node::distance`, route_model.h lines 58–60). -/
noncomputable def euclid (a b : MNode) : ℝ :=
  Real.sqrt ((sqDist a b : ℚ) : ℝ)

/-- The Euclidean edge-cost function of the store. -/
noncomputable def wE (m : Model) (i j : Nat) : ℝ :=
  euclid (nodeAt m i) (nodeAt m j)

/-- Modelled from the spec: `RoutePlanner::CalculateHValue`
(route_planner.cpp not in the source tree): the heuristic of a node is
its Euclidean distance to the goal (spec §4.5). -/
noncomputable def calculateHValue (m : Model) (goal v : Nat) : ℝ :=
  wE m v goal

/-- Modelled from the spec: `RoutePlanner::AStarSearch` (route_planner.cpp
not in the source tree): A* over the road graph with Euclidean edge costs
and heuristic; the accumulated unit-square distance of a found path is
converted to meters by the metric scale factor recorded at load time
(spec §4.5, §6). -/
noncomputable def AStarSearch (m : Model) (start goal : Nat) : Outcome ℝ :=
  match aStar m (wE m) (calculateHValue m goal) ((floatMax : ℚ) : ℝ) start goal with
  | .found p d => .found p ((m.metricScale : ℝ) * d)
  | o => o

/-- `RoutePlanner` (route_planner.h lines 92–98): the planner state the
claims inspect — the `distance` member with its initializer `0.0f`. -/
structure RoutePlanner where
  distance : ℝ := 0

/-- `RoutePlanner::GetDistance` (route_planner.h line 45). -/
def GetDistance (rp : RoutePlanner) : ℝ := rp.distance

/-- Modelled from the spec: the effect of `RoutePlanner::AStarSearch` on
the planner's `distance` member: a found path stores its distance; a
failed search leaves the member untouched (route_planner.cpp not in the
source tree). -/
noncomputable def runAStarSearch (m : Model) (start goal : Nat) (rp : RoutePlanner) :
    RoutePlanner :=
  match AStarSearch m start goal with
  | .found _ d => { rp with distance := d }
  | _ => rp

/-! ## Paths in the road graph -/

/-- `p` is a path from `a` to `b` in the road graph of `m`: non-empty,
starting at `a`, ending at `b`, with consecutive nodes adjacent on some
road. -/
def IsPathFrom (m : Model) (a b : Nat) (p : List Nat) : Prop :=
  p.head? = some a ∧ p.getLast? = some b ∧ p.Chain' (Adj m)

instance (m : Model) (a b : Nat) (p : List Nat) : Decidable (IsPathFrom m a b p) :=
  inferInstanceAs
    (Decidable (p.head? = some a ∧ p.getLast? = some b ∧ p.Chain' (Adj m)))

/-- Road-connectivity of two node indices. -/
def Connected (m : Model) (a b : Nat) : Prop :=
  ∃ p, IsPathFrom m a b p

/-! ## Store construction (`BuildStore`) -/

/-- A usable record of the point/path/tag record model (spec §6): a point
with two coordinates, or a way classified as a road; `unknown` stands for
any record that is not usable. -/
inductive Rec where
  | point (x y : ℚ)
  | roadWay (nodes : List Nat) (t : RoadType)
  | unknown
deriving DecidableEq, Repr

/-- Whether a record is usable. -/
def usableRec : Rec → Bool
  | .unknown => false
  | _ => true

/-- Assembling a store from usable records: points in order, each road
way appended to the way list with a road entry referencing it. -/
def assemble (recs : List Rec) : Model :=
  recs.foldl
    (fun m r =>
      match r with
      | .point a b => { m with nodes := m.nodes ++ [⟨a, b⟩] }
      | .roadWay ns t =>
          { m with ways := m.ways ++ [⟨ns⟩],
                   roads := m.roads ++ [⟨m.ways.length, t⟩] }
      | .unknown => m)
    { nodes := [], ways := [], roads := [], metricScale := 1 }

/-- Modelled from the spec: `BuildStore` / the `Model` constructor
(model.cpp is not in the source tree).  Construction from a byte buffer
is abstracted by the decoding function `decode` from bytes to records;
construction fails with a parse error when the buffer is empty or decodes
to no usable records (spec §6, §7), and only then proceeds to assemble
the store. -/
def buildStore (decode : List Nat → List Rec) (bytes : List Nat) :
    Except String Model :=
  if bytes.isEmpty then .error "empty input buffer"
  else
    let recs := (decode bytes).filter usableRec
    if recs.isEmpty then .error "no usable records"
    else .ok (assemble recs)

/-! ## The parent-chain relation and the search invariant -/

/-- `Follows par start v p`: `p` is the chain of best-predecessor links
leading from `start` to `v` (in start-to-`v` order). -/
inductive Follows (par : Nat → Option Nat) (start : Nat) : Nat → List Nat → Prop
  | refl : Follows par start start [start]
  | step {u v : Nat} {p : List Nat} :
      Follows par start u p → par v = some u → Follows par start v (p ++ [v])

/-- The invariant of the A* loop, relative to the store `m`, the edge
costs `w`, the heuristic `hf`, and the endpoints.  Its fields:
membership bookkeeping of the open list, the closed-set optimality, the
frontier property, and the parent-chain property tying every seen node's
`g` to a concrete road path. -/
structure LoopInv (m : Model) (w : Nat → Nat → α) (hf : Nat → α)
    (start goal : Nat) (st : SState α) : Prop where
  nodup : st.openL.Nodup
  open_not_vis : ∀ v ∈ st.openL, st.vis v = false
  hv_open : ∀ v ∈ st.openL, st.hv v = hf v
  start_mem : st.vis start = false → start ∈ st.openL ∧ st.gv start = 0
  par_start : st.par start = none
  goal_not_vis : st.vis goal = false
  gnonneg : ∀ v, 0 ≤ st.gv v
  frontier : ∀ u v, st.vis u = true → Adj m u v → st.vis v = false →
    v ∈ st.openL ∧ st.gv v ≤ st.gv u + w u v
  closed_opt : ∀ v, st.vis v = true → ∀ p, IsPathFrom m start v p →
    st.gv v ≤ pathLen w p
  chain : ∀ v, v ∈ st.openL ∨ st.vis v = true →
    ∃ p, Follows st.par start v p ∧ IsPathFrom m start v p ∧
      pathLen w p = st.gv v ∧ p.Nodup ∧ ∀ u ∈ p.dropLast, st.vis u = true

/-- The frontier field during the expansion of the freshly closed node
`c`: pairs `(c, v)` with `v` still pending relaxation are exempt. -/
def FrontierExc (m : Model) (w : Nat → Nat → α) (c : Nat) (todo : List Nat)
    (st : SState α) : Prop :=
  ∀ u v, st.vis u = true → Adj m u v → st.vis v = false →
    (u = c ∧ v ∈ todo) ∨ (v ∈ st.openL ∧ st.gv v ≤ st.gv u + w u v)

/-- The invariant with the frontier field factored out, used while the
expansion of one node is in progress. -/
structure CoreInv (m : Model) (w : Nat → Nat → α) (hf : Nat → α)
    (start goal : Nat) (st : SState α) : Prop where
  nodup : st.openL.Nodup
  open_not_vis : ∀ v ∈ st.openL, st.vis v = false
  hv_open : ∀ v ∈ st.openL, st.hv v = hf v
  start_mem : st.vis start = false → start ∈ st.openL ∧ st.gv start = 0
  par_start : st.par start = none
  goal_not_vis : st.vis goal = false
  gnonneg : ∀ v, 0 ≤ st.gv v
  closed_opt : ∀ v, st.vis v = true → ∀ p, IsPathFrom m start v p →
    st.gv v ≤ pathLen w p
  chain : ∀ v, v ∈ st.openL ∨ st.vis v = true →
    ∃ p, Follows st.par start v p ∧ IsPathFrom m start v p ∧
      pathLen w p = st.gv v ∧ p.Nodup ∧ ∀ u ∈ p.dropLast, st.vis u = true

/-- The number of unvisited node indices, the termination measure of the
loop. -/
def unvisCount (n : Nat) (st : SState α) : Nat :=
  ((List.range n).filter fun v => !(st.vis v)).length

/-! ## Concrete fixtures -/

/-- A three-node line store: points `(0,0)`, `(1/2,0)`, `(1,0)` and one
road along the way `[0,1,2]`. -/
def lineStore : Model :=
  { nodes := [⟨0, 0⟩, ⟨1/2, 0⟩, ⟨1, 0⟩]
    ways := [⟨[0, 1, 2]⟩]
    roads := [⟨0, .Residential⟩]
    metricScale := 1000 }

/-- A store with one road `[0,1]` and an isolated third point `(0,1)`:
node `2` lies in no road, so it is disconnected from nodes `0` and `1`. -/
def splitStore : Model :=
  { nodes := [⟨0, 0⟩, ⟨1, 0⟩, ⟨0, 1⟩]
    ways := [⟨[0, 1]⟩]
    roads := [⟨0, .Residential⟩]
    metricScale := 1000 }

/-! # Theorems

Basic structural lemmas about the road graph, the index and neighbor
discovery. -/

theorem listAdj_iff {l : List Nat} {i j : Nat} :
    listAdj l i j = true ↔
      ∃ p ∈ l.zip l.tail, (p.1 = i ∧ p.2 = j) ∨ (p.1 = j ∧ p.2 = i) := by
  simp [listAdj, List.any_eq_true]

theorem listAdj_symm {l : List Nat} {i j : Nat} :
    listAdj l i j = listAdj l j i := by
  rcases h1 : listAdj l i j with _ | _ <;> rcases h2 : listAdj l j i with _ | _
  · rfl
  · rw [listAdj_iff] at h2
    rcases h2 with ⟨p, hp, hd⟩
    have : listAdj l i j = true := listAdj_iff.2 ⟨p, hp, hd.symm⟩
    rw [h1] at this; exact this
  · rw [listAdj_iff] at h1
    rcases h1 with ⟨p, hp, hd⟩
    have : listAdj l j i = true := listAdj_iff.2 ⟨p, hp, hd.symm⟩
    rw [h2] at this; exact this.symm
  · rfl

theorem listAdj_mem {l : List Nat} {i j : Nat} (h : listAdj l i j = true) :
    i ∈ l ∧ j ∈ l := by
  rw [listAdj_iff] at h
  rcases h with ⟨p, hp, hd⟩
  have h1 := List.of_mem_zip hp
  have h2 : p.2 ∈ l := List.tail_subset l h1.2
  rcases hd with ⟨ha, hb⟩ | ⟨ha, hb⟩
  · exact ⟨ha ▸ h1.1, hb ▸ h2⟩
  · exact ⟨hb ▸ h2, ha ▸ h1.1⟩

theorem adj_iff {m : Model} {i j : Nat} :
    Adj m i j ↔ ∃ r ∈ m.roads, listAdj (wayNodes m r.way) i j = true := by
  simp [Adj, adjB, List.any_eq_true]

theorem adj_symm {m : Model} {i j : Nat} (h : Adj m i j) : Adj m j i := by
  rw [adj_iff] at h ⊢
  rcases h with ⟨r, hr, hl⟩
  exact ⟨r, hr, listAdj_symm ▸ hl⟩

theorem adj_lt {m : Model} (hwf : WF m) {u v : Nat} (h : Adj m u v) :
    u < m.nodes.length ∧ v < m.nodes.length := by
  rw [adj_iff] at h
  rcases h with ⟨r, hr, hl⟩
  have hm := listAdj_mem hl
  have hall := List.all_eq_true.1 hwf r hr
  have hu := List.all_eq_true.1 hall u hm.1
  have hv := List.all_eq_true.1 hall v hm.2
  simp only [decide_eq_true_eq] at hu hv
  exact ⟨hu, hv⟩

theorem mem_node_to_road {m : Model} {p ri : Nat} :
    ri ∈ node_to_road m p ↔
      ri < m.roads.length ∧ p ∈ wayNodes m ((m.roads.getD ri ⟨0, .Invalid⟩).way) := by
  simp [node_to_road, List.mem_filter, List.mem_range]

theorem mem_ite_single {v x : Nat} {c : Prop} [Decidable c] :
    v ∈ (if c then [x] else ([] : List Nat)) ↔ c ∧ v = x := by
  split <;> simp_all

theorem mem_neighborsInWay {l : List Nat} {c v : Nat} :
    v ∈ neighborsInWay l c ↔ listAdj l c v = true := by
  rw [listAdj_iff]
  simp only [neighborsInWay, List.mem_flatMap, List.mem_append, mem_ite_single]
  constructor
  · rintro ⟨p, hp, ⟨h1, h2⟩ | ⟨h1, h2⟩⟩
    · exact ⟨p, hp, .inl ⟨h1, h2.symm⟩⟩
    · exact ⟨p, hp, .inr ⟨h2.symm, h1⟩⟩
  · rintro ⟨p, hp, ⟨h1, h2⟩ | ⟨h1, h2⟩⟩
    · exact ⟨p, hp, .inl ⟨h1, h2.symm⟩⟩
    · exact ⟨p, hp, .inr ⟨h2, h1.symm⟩⟩

theorem mem_neighborCandidates {m : Model} {c v : Nat} :
    v ∈ neighborCandidates m c ↔ Adj m c v := by
  simp only [neighborCandidates, List.mem_flatMap, mem_neighborsInWay, adj_iff]
  constructor
  · rintro ⟨ri, hri, hl⟩
    rcases mem_node_to_road.1 hri with ⟨hlt, _⟩
    refine ⟨m.roads.getD ri ⟨0, .Invalid⟩, ?_, hl⟩
    rw [List.getD_eq_getElem _ _ hlt]
    exact List.getElem_mem hlt
  · rintro ⟨r, hr, hl⟩
    rcases List.mem_iff_getElem.1 hr with ⟨ri, hlt, hget⟩
    refine ⟨ri, mem_node_to_road.2 ⟨hlt, ?_⟩, ?_⟩
    · rw [List.getD_eq_getElem _ _ hlt, hget]
      exact (listAdj_mem hl).1
    · rw [List.getD_eq_getElem _ _ hlt, hget]
      exact hl

theorem mem_findNeighborsOf {m : Model} {vis : Nat → Bool} {c v : Nat} :
    v ∈ findNeighborsOf m vis c ↔ Adj m c v ∧ v ≠ c ∧ vis v = false := by
  simp only [findNeighborsOf, List.mem_filter, mem_neighborCandidates,
    Bool.and_eq_true, Bool.not_eq_true', decide_eq_true_eq, and_assoc]

theorem adj_road_connected {m : Model} {u v : Nat} (h : Adj m u v) :
    RoadConnected m u := by
  rw [adj_iff] at h
  rcases h with ⟨r, hr, hl⟩
  rcases List.mem_iff_getElem.1 hr with ⟨ri, hlt, hget⟩
  have : ri ∈ node_to_road m u := by
    refine mem_node_to_road.2 ⟨hlt, ?_⟩
    rw [List.getD_eq_getElem _ _ hlt, hget]
    exact (listAdj_mem hl).1
  have hne : node_to_road m u ≠ [] := List.ne_nil_of_mem this
  simpa [RoadConnected, roadConnectedB, List.isEmpty_iff] using hne

/-! Path-length and path-splitting lemmas. -/

theorem pathLen_nonneg {w : Nat → Nat → α} (hw : ∀ u v, 0 ≤ w u v) :
    ∀ p : List Nat, 0 ≤ pathLen w p
  | [] => le_refl 0
  | [_] => le_refl 0
  | u :: v :: rest => by
    have h1 := pathLen_nonneg hw (v :: rest)
    have h2 := hw u v
    simpa [pathLen] using add_nonneg h2 h1

theorem pathLen_concat {w : Nat → Nat → α} :
    ∀ {p : List Nat} {u v : Nat}, p.getLast? = some u →
      pathLen w (p ++ [v]) = pathLen w p + w u v
  | [], _, _, h => by simp at h
  | [a], u, v, h => by
    simp only [List.getLast?_singleton, Option.some.injEq] at h
    subst h
    simp [pathLen]
  | a :: b :: rest, u, v, h => by
    have hl : (b :: rest).getLast? = some u := by
      simpa [List.getLast?_cons_cons] using h
    have ih := pathLen_concat (w := w) (p := b :: rest) (v := v) hl
    simp only [List.cons_append, List.append_eq, pathLen] at ih ⊢
    rw [ih, add_assoc]

theorem pathLen_take_drop {w : Nat → Nat → α} :
    ∀ (p : List Nat) (i : Nat), i < p.length →
      pathLen w p = pathLen w (p.take (i + 1)) + pathLen w (p.drop i)
  | [], i, h => by simp at h
  | x :: xs, 0, _ => by simp [pathLen]
  | [_], j + 1, h => by simp at h
  | x :: y :: ys, j + 1, h => by
    have hj : j < (y :: ys).length := by simpa using h
    have ih := pathLen_take_drop (w := w) (y :: ys) j hj
    have ht : List.take (j + 1) (y :: ys) = y :: List.take j ys := rfl
    rw [ht] at ih
    show w x y + pathLen w (y :: ys)
        = pathLen w (List.take (j + 1 + 1) (x :: y :: ys))
          + pathLen w (List.drop (j + 1) (x :: y :: ys))
    have ht2 : List.take (j + 1 + 1) (x :: y :: ys) = x :: y :: List.take j ys := rfl
    have hd2 : List.drop (j + 1) (x :: y :: ys) = List.drop j (y :: ys) := rfl
    rw [ht2, hd2, ih]
    show w x y + (pathLen w (y :: List.take j ys) + pathLen w (List.drop j (y :: ys)))
        = w x y + pathLen w (y :: List.take j ys) + pathLen w (List.drop j (y :: ys))
    rw [add_assoc]

theorem isPathFrom_cons {m : Model} {a b x y : Nat} {rest : List Nat}
    (h : IsPathFrom m a b (x :: y :: rest)) :
    x = a ∧ Adj m x y ∧ IsPathFrom m y b (y :: rest) := by
  rcases h with ⟨hh, hl, hc⟩
  simp only [List.head?_cons, Option.some.injEq] at hh
  rw [List.chain'_cons] at hc
  refine ⟨hh, hc.1, ?_, ?_, hc.2⟩
  · simp
  · simpa [List.getLast?_cons_cons] using hl

theorem path_mem_lt {m : Model} (hwf : WF m) :
    ∀ {p : List Nat} {a b : Nat}, a < m.nodes.length → IsPathFrom m a b p →
      ∀ x ∈ p, x < m.nodes.length
  | [], a, b, _, h => by simp [IsPathFrom] at h
  | [x], a, b, ha, h => by
    rcases h with ⟨hh, _, _⟩
    simp only [List.head?_cons, Option.some.injEq] at hh
    intro z hz
    simp only [List.mem_singleton] at hz
    subst hz; subst hh; exact ha
  | x :: y :: rest, a, b, ha, h => by
    obtain ⟨hx, hadj, hrest⟩ := isPathFrom_cons h
    have hy : y < m.nodes.length := (adj_lt hwf hadj).2
    intro z hz
    rcases List.mem_cons.1 hz with hz | hz
    · subst hz; subst hx; exact ha
    · exact path_mem_lt hwf hy hrest z hz

theorem path_telescope {m : Model} {w : Nat → Nat → α} {hf : Nat → α}
    (hcons : ∀ u v, Adj m u v → hf u ≤ w u v + hf v) :
    ∀ {p : List Nat} {a b : Nat}, IsPathFrom m a b p →
      hf a ≤ pathLen w p + hf b
  | [], a, b, h => by simp [IsPathFrom] at h
  | [x], a, b, h => by
    rcases h with ⟨hh, hl, _⟩
    simp only [List.head?_cons, Option.some.injEq] at hh
    simp only [List.getLast?_singleton, Option.some.injEq] at hl
    subst hh; subst hl
    simp [pathLen]
  | x :: y :: rest, a, b, h => by
    obtain ⟨hx, hadj, hrest⟩ := isPathFrom_cons h
    subst hx
    have ih := path_telescope hcons hrest
    calc hf x ≤ w x y + hf y := hcons x y hadj
    _ ≤ w x y + (pathLen w (y :: rest) + hf b) := by
        exact add_le_add_left ih _
    _ = pathLen w (x :: y :: rest) + hf b := by
        simp [pathLen, add_assoc]

theorem path_length_le {m : Model} (hwf : WF m) {p : List Nat} {a b : Nat}
    (ha : a < m.nodes.length) (h : IsPathFrom m a b p) (hnd : p.Nodup) :
    p.length ≤ m.nodes.length := by
  classical
  have hlt := path_mem_lt hwf ha h
  have hsub : p.toFinset ⊆ Finset.range m.nodes.length := by
    intro x hx
    rw [List.mem_toFinset] at hx
    rw [Finset.mem_range]
    exact hlt x hx
  have := Finset.card_le_card hsub
  rwa [List.toFinset_card_of_nodup hnd, Finset.card_range] at this

/-! Prefix and suffix paths. -/

theorem isPathFrom_take {m : Model} {a b : Nat} {p : List Nat}
    (h : IsPathFrom m a b p) {i : Nat} (hi : i < p.length) :
    IsPathFrom m a p[i] (p.take (i + 1)) := by
  rcases h with ⟨hh, _, hc⟩
  refine ⟨?_, ?_, hc.take _⟩
  · rw [List.head?_take]
    simp [hh]
  · rw [List.getLast?_eq_getElem?]
    have hlen : (p.take (i + 1)).length = i + 1 := by
      simp [List.length_take]
      omega
    rw [hlen]
    simp only [Nat.add_sub_cancel, List.getElem?_take]
    simp [List.getElem?_eq_getElem hi]

theorem isPathFrom_drop {m : Model} {a b : Nat} {p : List Nat}
    (h : IsPathFrom m a b p) {i : Nat} (hi : i < p.length) :
    IsPathFrom m p[i] b (p.drop i) := by
  rcases h with ⟨_, hl, hc⟩
  refine ⟨?_, ?_, hc.drop _⟩
  · rw [List.head?_drop]
    simp [List.getElem?_eq_getElem hi]
  · rw [List.getLast?_eq_getElem?] at hl ⊢
    rw [List.length_drop, List.getElem?_drop]
    have : i + (p.length - i - 1) = p.length - 1 := by omega
    rw [this]
    exact hl

theorem isPathFrom_adj_get {m : Model} {a b : Nat} {p : List Nat}
    (h : IsPathFrom m a b p) {i : Nat} (hi : i + 1 < p.length) :
    Adj m p[i] p[i + 1] := by
  have hc := h.2.2
  rw [List.chain'_iff_get] at hc
  have := hc i (by omega)
  simpa [List.get_eq_getElem] using this

/-! `popMin` (`RoutePlanner::NextNode`) lemmas. -/

theorem popMin_none {f : Nat → α} : ∀ {l : List Nat}, popMin f l = none ↔ l = []
  | [] => by simp [popMin]
  | x :: xs => by
    simp only [popMin]
    rcases hxs : popMin f xs with _ | ⟨y, ys⟩
    · simp
    · simp only []
      split <;> simp

theorem popMin_perm {f : Nat → α} :
    ∀ {l : List Nat} {c : Nat} {rest : List Nat},
      popMin f l = some (c, rest) → l.Perm (c :: rest)
  | [], c, rest, h => by simp [popMin] at h
  | x :: xs, c, rest, h => by
    simp only [popMin] at h
    rcases hxs : popMin f xs with _ | ⟨y, ys⟩
    · rw [hxs] at h
      simp only [Option.some.injEq, Prod.mk.injEq] at h
      obtain ⟨rfl, rfl⟩ := h
      have : xs = [] := popMin_none.1 hxs
      subst this
      exact List.Perm.refl _
    · rw [hxs] at h
      dsimp only at h
      have ih := popMin_perm hxs
      by_cases hle : f x ≤ f y
      · rw [if_pos hle] at h
        simp only [Option.some.injEq, Prod.mk.injEq] at h
        obtain ⟨rfl, rfl⟩ := h
        exact List.Perm.refl _
      · rw [if_neg hle] at h
        simp only [Option.some.injEq, Prod.mk.injEq] at h
        obtain ⟨rfl, rfl⟩ := h
        exact (ih.cons x).trans (List.Perm.swap _ _ _)

theorem popMin_min {f : Nat → α} :
    ∀ {l : List Nat} {c : Nat} {rest : List Nat},
      popMin f l = some (c, rest) → ∀ v ∈ l, f c ≤ f v
  | [], c, rest, h => by simp [popMin] at h
  | x :: xs, c, rest, h => by
    simp only [popMin] at h
    rcases hxs : popMin f xs with _ | ⟨y, ys⟩
    · rw [hxs] at h
      simp only [Option.some.injEq, Prod.mk.injEq] at h
      obtain ⟨rfl, rfl⟩ := h
      have : xs = [] := popMin_none.1 hxs
      subst this
      intro v hv
      simp only [List.mem_singleton] at hv
      subst hv; exact le_refl _
    · rw [hxs] at h
      dsimp only at h
      have ih := popMin_min hxs
      by_cases hle : f x ≤ f y
      · rw [if_pos hle] at h
        simp only [Option.some.injEq, Prod.mk.injEq] at h
        obtain ⟨rfl, rfl⟩ := h
        intro v hv
        rcases List.mem_cons.1 hv with rfl | hv
        · exact le_refl _
        · exact le_trans hle (ih v hv)
      · rw [if_neg hle] at h
        simp only [Option.some.injEq, Prod.mk.injEq] at h
        obtain ⟨rfl, rfl⟩ := h
        intro v hv
        rcases List.mem_cons.1 hv with rfl | hv
        · exact le_of_lt (lt_of_not_le hle)
        · exact ih v hv

/-! Parent-chain (`Follows`) lemmas. -/

theorem follows_head {par : Nat → Option Nat} {start v : Nat} {p : List Nat}
    (h : Follows par start v p) :
    p.head? = some start ∧ p.getLast? = some v := by
  induction h with
  | refl => simp
  | step _ _ ih =>
    rcases ih with ⟨hh, _⟩
    constructor
    · rcases hp : (‹List Nat›) with _ | _
      all_goals simp_all [List.head?_append]
    · simp [List.getLast?_concat]

theorem follows_congr {par par' : Nat → Option Nat} {start v : Nat} {p : List Nat}
    (h : Follows par start v p) (hagree : ∀ x ∈ p, par' x = par x) :
    Follows par' start v p := by
  induction h with
  | refl => exact Follows.refl
  | step hf hpar ih =>
    refine Follows.step (ih fun x hx => hagree x ?_) ?_
    · simp [hx]
    · rw [hagree _ (by simp)]
      exact hpar

theorem parentWalk_eq {par : Nat → Option Nat} {start : Nat}
    (hstart : par start = none) :
    ∀ {v : Nat} {p : List Nat}, Follows par start v p →
      ∀ {fuel : Nat}, p.length ≤ fuel + 1 → parentWalk par fuel v = p.reverse := by
  intro v p h
  induction h with
  | refl =>
    intro fuel _
    cases fuel with
    | zero => simp [parentWalk]
    | succ k => simp [parentWalk, hstart]
  | @step u v' p' hf hpar ih =>
    intro fuel hlen
    have hne : p' ≠ [] := by
      intro hemp
      have := (follows_head hf).1
      simp [hemp] at this
    have hplen : 1 ≤ p'.length := List.length_pos.2 hne
    cases fuel with
    | zero =>
      exfalso
      simp only [List.length_append, List.length_singleton] at hlen
      omega
    | succ k =>
      simp only [parentWalk, hpar]
      have : p'.length ≤ k + 1 := by
        simp only [List.length_append, List.length_singleton] at hlen
        omega
      rw [ih this]
      simp

/-! Effects of one relaxation (`relax`) on the search state. -/

theorem relax_cases (w : Nat → Nat → α) (hf : Nat → α) (c : Nat) (st : SState α)
    (v : Nat) :
    (v ∈ st.openL ∧ st.gv c + w c v < st.gv v ∧
      relax w hf c st v =
        { st with gv := Function.update st.gv v (st.gv c + w c v),
                  par := Function.update st.par v (some c) }) ∨
    (v ∈ st.openL ∧ ¬(st.gv c + w c v < st.gv v) ∧ relax w hf c st v = st) ∨
    (v ∉ st.openL ∧
      relax w hf c st v =
        { st with gv := Function.update st.gv v (st.gv c + w c v),
                  hv := Function.update st.hv v (hf v),
                  par := Function.update st.par v (some c),
                  openL := st.openL ++ [v] }) := by
  by_cases hmem : v ∈ st.openL
  · by_cases himp : st.gv c + w c v < st.gv v
    · exact .inl ⟨hmem, himp, by simp [relax, hmem, himp]⟩
    · exact .inr (.inl ⟨hmem, himp, by simp [relax, hmem, himp]⟩)
  · exact .inr (.inr ⟨hmem, by simp [relax, hmem]⟩)

theorem relax_vis (w : Nat → Nat → α) (hf : Nat → α) (c : Nat) (st : SState α)
    (v : Nat) : (relax w hf c st v).vis = st.vis := by
  rcases relax_cases w hf c st v with ⟨_, _, h⟩ | ⟨_, _, h⟩ | ⟨_, h⟩ <;> rw [h]

theorem relax_untouched (w : Nat → Nat → α) (hf : Nat → α) (c : Nat)
    (st : SState α) (v : Nat) {x : Nat} (hx : x ≠ v) :
    (relax w hf c st v).gv x = st.gv x ∧ (relax w hf c st v).par x = st.par x ∧
      (relax w hf c st v).hv x = st.hv x := by
  rcases relax_cases w hf c st v with ⟨_, _, h⟩ | ⟨_, _, h⟩ | ⟨_, h⟩ <;>
    simp [h, Function.update_noteq hx]

theorem relax_open_sup (w : Nat → Nat → α) (hf : Nat → α) (c : Nat)
    (st : SState α) (v : Nat) {x : Nat} (hx : x ∈ st.openL) :
    x ∈ (relax w hf c st v).openL := by
  rcases relax_cases w hf c st v with ⟨_, _, h⟩ | ⟨_, _, h⟩ | ⟨_, h⟩ <;>
    simp [h, hx]

theorem relax_open_sub (w : Nat → Nat → α) (hf : Nat → α) (c : Nat)
    (st : SState α) (v : Nat) {x : Nat} (hx : x ∈ (relax w hf c st v).openL) :
    x ∈ st.openL ∨ x = v := by
  rcases relax_cases w hf c st v with ⟨_, _, h⟩ | ⟨_, _, h⟩ | ⟨_, h⟩ <;>
    rw [h] at hx
  · exact .inl hx
  · exact .inl hx
  · simpa using List.mem_append.1 hx

theorem relax_settles (w : Nat → Nat → α) (hf : Nat → α) (c : Nat)
    (st : SState α) (v : Nat) :
    v ∈ (relax w hf c st v).openL ∧
      (relax w hf c st v).gv v ≤ st.gv c + w c v := by
  rcases relax_cases w hf c st v with ⟨hm, _, h⟩ | ⟨hm, hn, h⟩ | ⟨_, h⟩
  · exact ⟨by simp [h, hm], by simp [h]⟩
  · exact ⟨by simp [h, hm], by rw [h]; exact le_of_not_lt hn⟩
  · exact ⟨by simp [h], by simp [h]⟩

theorem relax_gv_mono (w : Nat → Nat → α) (hf : Nat → α) (c : Nat)
    (st : SState α) (v : Nat) (hx : v ∈ st.openL) :
    (relax w hf c st v).gv v ≤ st.gv v := by
  rcases relax_cases w hf c st v with ⟨_, hlt, h⟩ | ⟨_, _, h⟩ | ⟨hm, h⟩
  · simp [h]; exact le_of_lt hlt
  · simp [h]
  · exact absurd hx hm

/-- All nodes of a parent chain whose interior is visited and whose last
node is visited are visited. -/
theorem chain_all_vis {vis : Nat → Bool} {p : List Nat} {c : Nat}
    (hlast : p.getLast? = some c) (hdrop : ∀ u ∈ p.dropLast, vis u = true)
    (hc : vis c = true) : ∀ u ∈ p, vis u = true := by
  have hne : p ≠ [] := by rintro rfl; simp at hlast
  intro u hu
  rw [← List.dropLast_append_getLast hne] at hu
  rcases List.mem_append.1 hu with hu | hu
  · exact hdrop u hu
  · rw [List.getLast?_eq_getLast _ hne, Option.some.injEq] at hlast
    simp only [List.mem_singleton] at hu
    rw [hu, hlast]
    exact hc

/-! Preservation of the invariant core by one relaxation. -/

theorem head?_append_single {l : List Nat} (h : l ≠ []) (x : Nat) :
    (l ++ [x]).head? = l.head? := by
  cases l with
  | nil => simp at h
  | cons a t => simp

/-- The parent chain of the just-relaxed node `v`: the chain of `c`
extended by the edge `c → v`. -/
theorem chain_extend {m : Model} {w : Nat → Nat → α} {hf : Nat → α}
    {start goal c v : Nat} {st : SState α}
    (hcvis : st.vis c = true) (hadj : Adj m c v) (hvvis : st.vis v = false)
    (hci : CoreInv m w hf start goal st) :
    ∃ p, Follows (Function.update st.par v (some c)) start v p ∧
      IsPathFrom m start v p ∧ pathLen w p = st.gv c + w c v ∧ p.Nodup ∧
      ∀ u ∈ p.dropLast, st.vis u = true := by
  obtain ⟨pc, hfol, hpath, hlen, hnd, hdrop⟩ := hci.chain c (Or.inr hcvis)
  have hlast : pc.getLast? = some c := (follows_head hfol).2
  have hallvis : ∀ u ∈ pc, st.vis u = true := chain_all_vis hlast hdrop hcvis
  have hvnot : v ∉ pc := fun hv => by rw [hallvis v hv] at hvvis; cases hvvis
  have hne : pc ≠ [] := by rintro rfl; simp at hlast
  refine ⟨pc ++ [v], ?_, ⟨?_, ?_, ?_⟩, ?_, ?_, ?_⟩
  · refine Follows.step (follows_congr hfol ?_) (Function.update_same ..)
    intro x hx
    exact Function.update_noteq (fun he => hvnot (by rw [← he]; exact hx)) _ _
  · rw [head?_append_single hne]
    exact hpath.1
  · exact List.getLast?_concat _
  · rw [List.chain'_append]
    refine ⟨hpath.2.2, List.chain'_singleton v, ?_⟩
    intro x hx y hy
    rw [hlast, Option.mem_def, Option.some.injEq] at hx
    simp only [List.head?_cons, Option.mem_def, Option.some.injEq] at hy
    subst hx; subst hy
    exact hadj
  · rw [pathLen_concat hlast, hlen]
  · rw [List.nodup_append]
    exact ⟨hnd, List.nodup_singleton v, List.disjoint_singleton.2 hvnot⟩
  · rw [List.dropLast_concat]
    exact hallvis

/-- The parent chain of any other seen node is unaffected by updating the
parent of the unvisited node `v`. -/
theorem chain_other {m : Model} {w : Nat → Nat → α} {hf : Nat → α}
    {start goal v : Nat} {st : SState α} (hvvis : st.vis v = false)
    (hci : CoreInv m w hf start goal st) {x : Nat} (hxv : x ≠ v)
    (hx : x ∈ st.openL ∨ st.vis x = true) (o : Option Nat) :
    ∃ p, Follows (Function.update st.par v o) start x p ∧
      IsPathFrom m start x p ∧ pathLen w p = st.gv x ∧ p.Nodup ∧
      ∀ u ∈ p.dropLast, st.vis u = true := by
  obtain ⟨px, hfol, hpath, hlen, hnd, hdrop⟩ := hci.chain x hx
  have hlast : px.getLast? = some x := (follows_head hfol).2
  have hvnot : v ∉ px := by
    intro hv
    have hne : px ≠ [] := by rintro rfl; simp at hlast
    rw [← List.dropLast_append_getLast hne] at hv
    rcases List.mem_append.1 hv with hv | hv
    · rw [hdrop v hv] at hvvis; cases hvvis
    · rw [List.getLast?_eq_getLast _ hne, Option.some.injEq] at hlast
      simp only [List.mem_singleton] at hv
      have hxe : x = v := by rw [← hlast]; exact hv.symm
      exact hxv hxe
  refine ⟨px, follows_congr hfol ?_, hpath, hlen, hnd, hdrop⟩
  intro y hy
  exact Function.update_noteq (fun he => hvnot (by rw [← he]; exact hy)) _ _

/-- One relaxation of an unvisited neighbor `v` of the closed node `c`
preserves the invariant core. -/
theorem relax_coreInv {m : Model} {w : Nat → Nat → α} {hf : Nat → α}
    {start goal c v : Nat} {st : SState α}
    (hw : ∀ u x, 0 ≤ w u x)
    (hcvis : st.vis c = true) (hadj : Adj m c v) (hvvis : st.vis v = false)
    (hci : CoreInv m w hf start goal st) :
    CoreInv m w hf start goal (relax w hf c st v) := by
  have hg0 : 0 ≤ st.gv c + w c v := add_nonneg (hci.gnonneg c) (hw c v)
  rcases relax_cases w hf c st v with ⟨hmem, hlt, heq⟩ | ⟨_, _, heq⟩ | ⟨hmem, heq⟩
  · -- the improvement case: g and parent of v are updated in place
    rw [heq]
    refine { nodup := hci.nodup, open_not_vis := hci.open_not_vis,
             hv_open := hci.hv_open, goal_not_vis := hci.goal_not_vis,
             start_mem := ?_, par_start := ?_, gnonneg := ?_,
             closed_opt := ?_, chain := ?_ }
    · intro hsv
      dsimp only at hsv ⊢
      obtain ⟨hmem0, hgs⟩ := hci.start_mem hsv
      by_cases hsveq : start = v
      · exfalso
        rw [hsveq] at hgs
        rw [hgs] at hlt
        exact absurd hlt (not_lt.2 hg0)
      · exact ⟨hmem0, by rw [Function.update_noteq hsveq]; exact hgs⟩
    · dsimp only
      by_cases hsveq : start = v
      · exfalso
        obtain ⟨_, hgs⟩ := hci.start_mem (by rw [hsveq]; exact hvvis)
        rw [hsveq] at hgs
        rw [hgs] at hlt
        exact absurd hlt (not_lt.2 hg0)
      · rw [Function.update_noteq hsveq]
        exact hci.par_start
    · intro x
      dsimp only
      by_cases hxv : x = v
      · subst hxv
        rw [Function.update_same]
        exact hg0
      · rw [Function.update_noteq hxv]
        exact hci.gnonneg x
    · intro x hxvis p hp
      dsimp only at hxvis ⊢
      have hxv : x ≠ v := fun he => by rw [he, hvvis] at hxvis; cases hxvis
      rw [Function.update_noteq hxv]
      exact hci.closed_opt x hxvis p hp
    · intro x hx
      dsimp only at hx ⊢
      by_cases hxv : x = v
      · subst hxv
        rw [Function.update_same]
        exact chain_extend hcvis hadj hvvis hci
      · rw [Function.update_noteq hxv]
        exact chain_other hvvis hci hxv hx (some c)
  · -- the no-improvement case: the state is unchanged
    rw [heq]
    exact hci
  · -- the insertion case: v enters the open list
    rw [heq]
    have hsv_ne : st.vis start = false → start ≠ v := by
      intro hsv he
      exact hmem (he ▸ (hci.start_mem hsv).1)
    refine { nodup := ?_, open_not_vis := ?_, hv_open := ?_,
             goal_not_vis := hci.goal_not_vis, start_mem := ?_,
             par_start := ?_, gnonneg := ?_, closed_opt := ?_, chain := ?_ }
    · dsimp only
      rw [List.nodup_append]
      exact ⟨hci.nodup, List.nodup_singleton v, List.disjoint_singleton.2 hmem⟩
    · intro x hx
      dsimp only at hx ⊢
      rcases List.mem_append.1 hx with hx | hx
      · exact hci.open_not_vis x hx
      · simp only [List.mem_singleton] at hx
        rw [hx]; exact hvvis
    · intro x hx
      dsimp only at hx ⊢
      rcases List.mem_append.1 hx with hx | hx
      · have hxv : x ≠ v := fun he => hmem (he ▸ hx)
        rw [Function.update_noteq hxv]
        exact hci.hv_open x hx
      · simp only [List.mem_singleton] at hx
        rw [hx, Function.update_same]
    · intro hsv
      dsimp only at hsv ⊢
      obtain ⟨hmem0, hgs⟩ := hci.start_mem hsv
      have hne := hsv_ne hsv
      refine ⟨List.mem_append_left _ hmem0, ?_⟩
      rw [Function.update_noteq hne]
      exact hgs
    · dsimp only
      by_cases hsveq : start = v
      · exfalso
        exact hsv_ne (by rw [hsveq]; exact hvvis) hsveq
      · rw [Function.update_noteq hsveq]
        exact hci.par_start
    · intro x
      dsimp only
      by_cases hxv : x = v
      · subst hxv
        rw [Function.update_same]
        exact hg0
      · rw [Function.update_noteq hxv]
        exact hci.gnonneg x
    · intro x hxvis p hp
      dsimp only at hxvis ⊢
      have hxv : x ≠ v := fun he => by rw [he, hvvis] at hxvis; cases hxvis
      rw [Function.update_noteq hxv]
      exact hci.closed_opt x hxvis p hp
    · intro x hx
      dsimp only at hx ⊢
      by_cases hxv : x = v
      · subst hxv
        rw [Function.update_same]
        exact chain_extend hcvis hadj hvvis hci
      · rw [Function.update_noteq hxv]
        refine chain_other hvvis hci hxv ?_ (some c)
        rcases hx with hx | hx
        · rcases List.mem_append.1 hx with hx | hx
          · exact .inl hx
          · simp only [List.mem_singleton] at hx
            exact absurd hx hxv
        · exact .inr hx

/-- A settled frontier pair survives a further relaxation. -/
theorem relax_keeps_settled {w : Nat → Nat → α} {hf : Nat → α} {c v : Nat}
    {st : SState α} {u x : Nat}
    (hvvis : st.vis v = false) (huvis : st.vis u = true)
    (hset : x ∈ st.openL ∧ st.gv x ≤ st.gv u + w u x) :
    x ∈ (relax w hf c st v).openL ∧
      (relax w hf c st v).gv x ≤ (relax w hf c st v).gv u + w u x := by
  have huv : u ≠ v := fun he => by rw [he, hvvis] at huvis; cases huvis
  have hgu : (relax w hf c st v).gv u = st.gv u :=
    (relax_untouched w hf c st v huv).1
  by_cases hxv : x = v
  · subst hxv
    rcases relax_cases w hf c st x with ⟨hmem, hlt, heq⟩ | ⟨_, _, heq⟩ | ⟨hmem, heq⟩
    · refine ⟨by rw [heq]; exact hset.1, ?_⟩
      rw [hgu, heq]
      dsimp only
      rw [Function.update_same]
      exact le_trans (le_of_lt hlt) hset.2
    · rw [heq]
      exact hset
    · exact absurd hset.1 hmem
  · refine ⟨relax_open_sup w hf c st v hset.1, ?_⟩
    rw [hgu, (relax_untouched w hf c st v hxv).1]
    exact hset.2

/-- Relaxing all pending neighbors of the closed node `c` preserves the
invariant core and completes the frontier property. -/
theorem expand_go {m : Model} {w : Nat → Nat → α} {hf : Nat → α}
    {start goal c : Nat} (hw : ∀ u x, 0 ≤ w u x) :
    ∀ (todo : List Nat) (st : SState α),
      CoreInv m w hf start goal st →
      st.vis c = true →
      (∀ v ∈ todo, Adj m c v ∧ v ≠ c ∧ st.vis v = false) →
      FrontierExc m w c todo st →
      CoreInv m w hf start goal (todo.foldl (relax w hf c) st) ∧
      FrontierExc m w c [] (todo.foldl (relax w hf c) st)
  | [], st, hci, _, _, hfr => ⟨hci, hfr⟩
  | v :: todo', st, hci, hcvis, htodo, hfr => by
    obtain ⟨hadj, hvc, hvvis⟩ := htodo v (List.mem_cons_self ..)
    have hci' := relax_coreInv hw hcvis hadj hvvis hci
    have hcvis' : (relax w hf c st v).vis c = true := by
      rw [relax_vis]; exact hcvis
    have htodo' : ∀ x ∈ todo', Adj m c x ∧ x ≠ c ∧ (relax w hf c st v).vis x = false := by
      intro x hx
      obtain ⟨h1, h2, h3⟩ := htodo x (List.mem_cons_of_mem _ hx)
      exact ⟨h1, h2, by rw [relax_vis]; exact h3⟩
    have hfr' : FrontierExc m w c todo' (relax w hf c st v) := by
      intro u x huvis hadjux hxvis
      rw [relax_vis] at huvis hxvis
      rcases hfr u x huvis hadjux hxvis with ⟨huc, hmem⟩ | hset
      · rw [huc]
        rcases List.mem_cons.1 hmem with hxv | hmem
        · right
          rw [hxv]
          have hs := relax_settles w hf c st v
          have hgc : (relax w hf c st v).gv c = st.gv c :=
            (relax_untouched w hf c st v (Ne.symm hvc)).1
          exact ⟨hs.1, by rw [hgc]; exact hs.2⟩
        · exact .inl ⟨rfl, hmem⟩
      · exact .inr (relax_keeps_settled hvvis huvis hset)
    simpa only [List.foldl_cons] using
      expand_go hw todo' (relax w hf c st v) hci' hcvis' htodo' hfr'

/-- The last element of a `take (i+1)`. -/
theorem getLast?_take_succ {p : List Nat} {i : Nat} (hi : i < p.length) :
    (p.take (i + 1)).getLast? = some p[i] := by
  rw [List.getLast?_eq_getElem?]
  have hlen : (p.take (i + 1)).length = i + 1 := by
    simp [List.length_take]
    omega
  rw [hlen]
  simp only [Nat.add_sub_cancel, List.getElem?_take]
  simp [List.getElem?_eq_getElem hi]

/-- The path length of a one-element prefix is zero. -/
theorem pathLen_take_one {w : Nat → Nat → α} (p : List Nat) :
    pathLen w (p.take 1) = 0 := by
  cases p <;> simp [pathLen]

/-- The popped minimum-`f` node's `g` value is bounded by the length of
every road path from the start to it: the crossing argument for A* with a
consistent heuristic. -/
theorem pop_bound {m : Model} {w : Nat → Nat → α} {hf : Nat → α}
    {start goal c : Nat} {rest : List Nat} {st : SState α}
    (hcons : ∀ u x, Adj m u x → hf u ≤ w u x + hf x)
    (hinv : LoopInv m w hf start goal st)
    (hpop : popMin (fval st) st.openL = some (c, rest)) :
    ∀ p, IsPathFrom m start c p → st.gv c ≤ pathLen w p := by
  intro p hp
  classical
  have hperm := popMin_perm hpop
  have hcmem : c ∈ st.openL := hperm.mem_iff.2 (List.mem_cons_self ..)
  have hcvis : st.vis c = false := hinv.open_not_vis c hcmem
  have hne : p ≠ [] := by rintro rfl; simp [IsPathFrom] at hp
  have hplen : 0 < p.length := List.length_pos.2 hne
  have hlastc : p[p.length - 1] = c := by
    have := hp.2.1
    rw [List.getLast?_eq_getElem?, List.getElem?_eq_getElem (by omega)] at this
    exact Option.some.inj this
  have hheads : p[0] = start := by
    have := hp.1
    rw [List.head?_eq_getElem?, List.getElem?_eq_getElem (by omega)] at this
    exact Option.some.inj this
  have hex : ∃ i, i < p.length ∧ st.vis (p.getD i 0) = false := by
    refine ⟨p.length - 1, by omega, ?_⟩
    rw [List.getD_eq_getElem _ _ (by omega), hlastc]
    exact hcvis
  obtain ⟨i₀, hi₀lt, hi₀vis, hmin0⟩ :
      ∃ i, i < p.length ∧ st.vis (p.getD i 0) = false ∧
        ∀ j, j < i → ¬(j < p.length ∧ st.vis (p.getD j 0) = false) :=
    ⟨Nat.find hex, (Nat.find_spec hex).1, (Nat.find_spec hex).2,
      fun j hj => Nat.find_min hex hj⟩
  have hi₀vis' : st.vis p[i₀] = false := by
    rwa [List.getD_eq_getElem _ _ hi₀lt] at hi₀vis
  have hmin : ∀ j, j < i₀ → ∀ hjl : j < p.length, st.vis (p.getD j 0) = true := by
    intro j hj hjl
    have h2 := hmin0 j hj
    simp only [not_and] at h2
    have h3 := h2 hjl
    simp only [Bool.not_eq_false] at h3
    exact h3
  have hclaim : p[i₀] ∈ st.openL ∧ st.gv p[i₀] ≤ pathLen w (p.take (i₀ + 1)) := by
    rcases Nat.eq_zero_or_pos i₀ with hz | hpos
    · subst hz
      have hstart : p[(0:Nat)] = start := hheads
      have hsvis : st.vis start = false := by rwa [hstart] at hi₀vis'
      obtain ⟨hsm, hsg⟩ := hinv.start_mem hsvis
      refine ⟨by rw [hstart]; exact hsm, ?_⟩
      rw [hstart, hsg]
      exact le_of_eq (pathLen_take_one p).symm
    · obtain ⟨j, rfl⟩ : ∃ j, i₀ = j + 1 := ⟨i₀ - 1, by omega⟩
      have hjlt : j < p.length := by omega
      have hjvis : st.vis p[j] = true := by
        have := hmin j (by omega) hjlt
        rwa [List.getD_eq_getElem _ _ hjlt] at this
      have hadj : Adj m p[j] p[j + 1] := isPathFrom_adj_get hp hi₀lt
      obtain ⟨hfm, hfg⟩ := hinv.frontier p[j] p[j + 1] hjvis hadj hi₀vis'
      have hopt : st.gv p[j] ≤ pathLen w (p.take (j + 1)) :=
        hinv.closed_opt p[j] hjvis _ (isPathFrom_take hp hjlt)
      refine ⟨hfm, ?_⟩
      have htake : p.take (j + 1 + 1) = p.take (j + 1) ++ [p[j + 1]] := by
        rw [List.take_succ, List.getElem?_eq_getElem hi₀lt]
        rfl
      rw [htake, pathLen_concat (getLast?_take_succ hjlt)]
      exact le_trans hfg (add_le_add_right hopt _)
  have hfc : fval st c ≤ fval st p[i₀] := popMin_min hpop _ hclaim.1
  have hhc : st.hv c = hf c := hinv.hv_open c hcmem
  have hhi : st.hv p[i₀] = hf p[i₀] := hinv.hv_open _ hclaim.1
  have htel : hf p[i₀] ≤ pathLen w (p.drop i₀) + hf c :=
    path_telescope hcons (isPathFrom_drop hp hi₀lt)
  have hsplit := pathLen_take_drop (w := w) p i₀ hi₀lt
  have hmain : st.gv c + hf c ≤ pathLen w p + hf c := by
    have h1 : st.gv c + hf c ≤ st.gv p[i₀] + hf p[i₀] := by
      have h0 := hfc
      rw [fval, fval, hhc, hhi] at h0
      exact h0
    have h2 : st.gv p[i₀] + hf p[i₀] ≤
        pathLen w (p.take (i₀ + 1)) + (pathLen w (p.drop i₀) + hf c) :=
      add_le_add hclaim.2 htel
    have h3 : pathLen w (p.take (i₀ + 1)) + (pathLen w (p.drop i₀) + hf c) =
        pathLen w p + hf c := by
      rw [← add_assoc, ← hsplit]
    exact le_trans h1 (le_trans h2 (le_of_eq h3))
  exact le_of_add_le_add_right hmain

/-- Folding relaxations never changes the visited flags. -/
theorem foldl_relax_vis {w : Nat → Nat → α} {hf : Nat → α} {c : Nat} :
    ∀ (todo : List Nat) (st : SState α),
      (todo.foldl (relax w hf c) st).vis = st.vis
  | [], _ => rfl
  | v :: todo', st => by
    rw [List.foldl_cons, foldl_relax_vis todo', relax_vis]

/-- Closing the popped node preserves the invariant core; the frontier
holds except at the pending neighbors of the closed node. -/
theorem close_coreInv {m : Model} {w : Nat → Nat → α} {hf : Nat → α}
    {start goal c : Nat} {rest : List Nat} {st : SState α}
    (hcons : ∀ u x, Adj m u x → hf u ≤ w u x + hf x)
    (hinv : LoopInv m w hf start goal st)
    (hpop : popMin (fval st) st.openL = some (c, rest))
    (hcgoal : c ≠ goal) :
    CoreInv m w hf start goal (closeNode st c rest) ∧
      FrontierExc m w c (findNeighborsOf m (closeNode st c rest).vis c)
        (closeNode st c rest) := by
  have hperm := popMin_perm hpop
  have hcmem : c ∈ st.openL := hperm.mem_iff.2 (List.mem_cons_self ..)
  have hnd : (c :: rest).Nodup := hperm.nodup hinv.nodup
  have hcnr : c ∉ rest := (List.nodup_cons.1 hnd).1
  have hrnd : rest.Nodup := (List.nodup_cons.1 hnd).2
  have hmem_iff : ∀ x, x ∈ st.openL ↔ x = c ∨ x ∈ rest := by
    intro x
    rw [hperm.mem_iff, List.mem_cons]
  have hrmem : ∀ x ∈ rest, x ∈ st.openL ∧ x ≠ c := by
    intro x hx
    exact ⟨(hmem_iff x).2 (.inr hx), fun he => hcnr (he ▸ hx)⟩
  have hvis_mono : ∀ u, st.vis u = true →
      Function.update st.vis c true u = true := by
    intro u hu
    by_cases huc : u = c
    · subst huc; rw [Function.update_same]
    · rw [Function.update_noteq huc]; exact hu
  refine ⟨?_, ?_⟩
  · refine { nodup := hrnd, open_not_vis := ?_, hv_open := ?_, start_mem := ?_,
             par_start := hinv.par_start, goal_not_vis := ?_,
             gnonneg := hinv.gnonneg, closed_opt := ?_, chain := ?_ }
    · intro v hv
      dsimp only [closeNode] at hv ⊢
      obtain ⟨hvo, hvc⟩ := hrmem v hv
      rw [Function.update_noteq hvc]
      exact hinv.open_not_vis v hvo
    · intro v hv
      dsimp only [closeNode] at hv ⊢
      exact hinv.hv_open v (hrmem v hv).1
    · intro hsv
      dsimp only [closeNode] at hsv ⊢
      by_cases hsc : start = c
      · rw [hsc, Function.update_same] at hsv; cases hsv
      · rw [Function.update_noteq hsc] at hsv
        obtain ⟨hsm, hsg⟩ := hinv.start_mem hsv
        rcases (hmem_iff start).1 hsm with he | hm
        · exact absurd he hsc
        · exact ⟨hm, hsg⟩
    · dsimp only [closeNode]
      rw [Function.update_noteq (Ne.symm hcgoal)]
      exact hinv.goal_not_vis
    · intro x hxvis p hp
      dsimp only [closeNode] at hxvis ⊢
      by_cases hxc : x = c
      · subst hxc
        exact pop_bound hcons hinv hpop p hp
      · rw [Function.update_noteq hxc] at hxvis
        exact hinv.closed_opt x hxvis p hp
    · intro x hx
      dsimp only [closeNode] at hx ⊢
      have hx' : x ∈ st.openL ∨ st.vis x = true := by
        rcases hx with hx | hx
        · exact .inl (hrmem x hx).1
        · by_cases hxc : x = c
          · exact .inl (hxc ▸ hcmem)
          · rw [Function.update_noteq hxc] at hx
            exact .inr hx
      obtain ⟨p, hfol, hpath, hlen, hnd2, hdrop⟩ := hinv.chain x hx'
      exact ⟨p, hfol, hpath, hlen, hnd2, fun u hu => hvis_mono u (hdrop u hu)⟩
  · intro u v huvis hadj hvvis
    dsimp only [closeNode] at huvis hvvis ⊢
    by_cases hvc : v = c
    · exfalso
      rw [hvc, Function.update_same] at hvvis
      cases hvvis
    · rw [Function.update_noteq hvc] at hvvis
      by_cases huc : u = c
      · subst huc
        left
        refine ⟨rfl, ?_⟩
        rw [mem_findNeighborsOf]
        refine ⟨hadj, hvc, ?_⟩
        dsimp only [closeNode]
        rw [Function.update_noteq hvc]
        exact hvvis
      · rw [Function.update_noteq huc] at huvis
        obtain ⟨hvm, hvg⟩ := hinv.frontier u v huvis hadj hvvis
        right
        rcases (hmem_iff v).1 hvm with he | hm
        · exact absurd he hvc
        · exact ⟨hm, hvg⟩

/-- One full iteration of the loop body (close the popped node, expand
it) preserves the invariant. -/
theorem step_inv {m : Model} {w : Nat → Nat → α} {hf : Nat → α}
    {start goal c : Nat} {rest : List Nat} {st : SState α}
    (hw : ∀ u x, 0 ≤ w u x)
    (hcons : ∀ u x, Adj m u x → hf u ≤ w u x + hf x)
    (hinv : LoopInv m w hf start goal st)
    (hpop : popMin (fval st) st.openL = some (c, rest))
    (hcgoal : c ≠ goal) :
    LoopInv m w hf start goal (expand m w hf c (closeNode st c rest)) := by
  obtain ⟨hci, hfr⟩ := close_coreInv hcons hinv hpop hcgoal
  have hcvis : (closeNode st c rest).vis c = true := by
    dsimp only [closeNode]
    rw [Function.update_same]
  have htodo : ∀ v ∈ findNeighborsOf m (closeNode st c rest).vis c,
      Adj m c v ∧ v ≠ c ∧ (closeNode st c rest).vis v = false := by
    intro v hv
    rw [mem_findNeighborsOf] at hv
    exact hv
  obtain ⟨hci', hfr'⟩ := expand_go hw _ _ hci hcvis htodo hfr
  have hfr'' : ∀ u v,
      (expand m w hf c (closeNode st c rest)).vis u = true → Adj m u v →
      (expand m w hf c (closeNode st c rest)).vis v = false →
      v ∈ (expand m w hf c (closeNode st c rest)).openL ∧
        (expand m w hf c (closeNode st c rest)).gv v ≤
          (expand m w hf c (closeNode st c rest)).gv u + w u v := by
    intro u v h1 h2 h3
    rcases hfr' u v h1 h2 h3 with ⟨_, hm⟩ | hs
    · exact absurd hm (List.not_mem_nil v)
    · exact hs
  exact { nodup := hci'.nodup, open_not_vis := hci'.open_not_vis,
          hv_open := hci'.hv_open, start_mem := hci'.start_mem,
          par_start := hci'.par_start, goal_not_vis := hci'.goal_not_vis,
          gnonneg := hci'.gnonneg, frontier := hfr'',
          closed_opt := hci'.closed_opt, chain := hci'.chain }

/-- Every open node is a valid node index. -/
theorem open_mem_lt {m : Model} {w : Nat → Nat → α} {hf : Nat → α}
    {start goal : Nat} {st : SState α} (hwf : WF m)
    (hs : start < m.nodes.length) (hinv : LoopInv m w hf start goal st) :
    ∀ v ∈ st.openL, v < m.nodes.length := by
  intro v hv
  obtain ⟨p, hfol, hpath, _, _, _⟩ := hinv.chain v (.inl hv)
  have hlast := (follows_head hfol).2
  have hne : p ≠ [] := by rintro rfl; simp at hlast
  rw [List.getLast?_eq_getLast _ hne, Option.some.injEq] at hlast
  have hvmem : v ∈ p := by
    rw [← hlast]
    exact List.getLast_mem hne
  exact path_mem_lt hwf hs hpath v hvmem

/-- Turning one kept element's predicate off strictly shrinks a filtered
duplicate-free list. -/
theorem filter_update_length {c : Nat} {pred : Nat → Bool} :
    ∀ {l : List Nat}, l.Nodup → c ∈ l → pred c = true →
      (l.filter fun v => if v = c then false else pred v).length <
        (l.filter pred).length
  | [], _, hc, _ => absurd hc (List.not_mem_nil c)
  | x :: xs, hnd, hc, hpc => by
    obtain ⟨hxn, hxnd⟩ := List.nodup_cons.1 hnd
    rcases List.mem_cons.1 hc with rfl | hc
    · have h1 : (c :: xs).filter (fun v => if v = c then false else pred v) =
          xs.filter fun v => if v = c then false else pred v := by
        rw [List.filter_cons]
        simp
      have h2 : (xs.filter fun v => if v = c then false else pred v) =
          xs.filter pred := by
        apply List.filter_congr
        intro v hv
        have : v ≠ c := fun he => hxn (he ▸ hv)
        simp [this]
      have h3 : (c :: xs).filter pred = c :: xs.filter pred := by
        rw [List.filter_cons, if_pos hpc]
      rw [h1, h2, h3]
      simp
    · have hxc : x ≠ c := fun he => hxn (he ▸ hc)
      have ih := filter_update_length hxnd hc hpc
      rw [List.filter_cons, List.filter_cons]
      have : (if x = c then false else pred x) = pred x := by simp [hxc]
      rw [this]
      by_cases hpx : pred x = true
      · rw [if_pos hpx, if_pos hpx]
        simpa using ih
      · simp only [Bool.not_eq_true] at hpx
        rw [hpx]
        simpa using ih

/-- Closing an unvisited valid node strictly decreases the number of
unvisited nodes. -/
theorem unvisCount_update {n c : Nat} {vis : Nat → Bool} (hc : c < n)
    (hvisc : vis c = false) :
    ((List.range n).filter fun v => !(Function.update vis c true v)).length <
      ((List.range n).filter fun v => !(vis v)).length := by
  have hcong : ((List.range n).filter fun v => !(Function.update vis c true v)) =
      (List.range n).filter fun v => if v = c then false else !(vis v) := by
    apply List.filter_congr
    intro v _
    by_cases hv : v = c
    · subst hv
      simp [Function.update_same]
    · rw [Function.update_noteq hv, if_neg hv]
  rw [hcong]
  exact filter_update_length (List.nodup_range n) (List.mem_range.2 hc)
    (by simp [hvisc])

/-- The invariant holds for the initial search state. -/
theorem initState_inv (m : Model) (w : Nat → Nat → α) (hf : Nat → α)
    (h₀ : α) (start goal : Nat) :
    LoopInv m w hf start goal (initState h₀ hf start) := by
  refine { nodup := List.nodup_singleton start, open_not_vis := ?_,
           hv_open := ?_, start_mem := ?_, par_start := rfl,
           goal_not_vis := rfl, gnonneg := ?_, frontier := ?_,
           closed_opt := ?_, chain := ?_ }
  · intro v _
    rfl
  · intro v hv
    dsimp only [initState] at hv ⊢
    simp only [List.mem_singleton] at hv
    rw [hv, Function.update_same]
  · intro _
    exact ⟨List.mem_singleton_self start, rfl⟩
  · intro v
    exact le_refl 0
  · intro u v hu
    cases hu
  · intro v hv
    cases hv
  · intro x hx
    dsimp only [initState] at hx ⊢
    have hxs : x = start := by
      rcases hx with hx | hx
      · simpa using hx
      · cases hx
    subst hxs
    refine ⟨[x], Follows.refl, ⟨rfl, rfl, List.chain'_singleton x⟩, rfl,
      List.nodup_singleton x, ?_⟩
    intro u hu
    cases hu

/-- When the open set has emptied, no road path connects the start to the
goal. -/
theorem open_empty_no_path {m : Model} {w : Nat → Nat → α} {hf : Nat → α}
    {start goal : Nat} {st : SState α}
    (hinv : LoopInv m w hf start goal st) (hempty : st.openL = []) :
    ∀ q, ¬ IsPathFrom m start goal q := by
  intro q hq
  classical
  have hne : q ≠ [] := by rintro rfl; simp [IsPathFrom] at hq
  have hqlen : 0 < q.length := List.length_pos.2 hne
  have hlastg : q[q.length - 1] = goal := by
    have := hq.2.1
    rw [List.getLast?_eq_getElem?, List.getElem?_eq_getElem (by omega)] at this
    exact Option.some.inj this
  have hheads : q[0] = start := by
    have := hq.1
    rw [List.head?_eq_getElem?, List.getElem?_eq_getElem (by omega)] at this
    exact Option.some.inj this
  have hex : ∃ i, i < q.length ∧ st.vis (q.getD i 0) = false := by
    refine ⟨q.length - 1, by omega, ?_⟩
    rw [List.getD_eq_getElem _ _ (by omega), hlastg]
    exact hinv.goal_not_vis
  obtain ⟨i₀, hi₀lt, hi₀vis, hmin0⟩ :
      ∃ i, i < q.length ∧ st.vis (q.getD i 0) = false ∧
        ∀ j, j < i → ¬(j < q.length ∧ st.vis (q.getD j 0) = false) :=
    ⟨Nat.find hex, (Nat.find_spec hex).1, (Nat.find_spec hex).2,
      fun j hj => Nat.find_min hex hj⟩
  have hi₀vis' : st.vis q[i₀] = false := by
    rwa [List.getD_eq_getElem _ _ hi₀lt] at hi₀vis
  rcases Nat.eq_zero_or_pos i₀ with hz | hpos
  · subst hz
    have hsvis : st.vis start = false := by rwa [hheads] at hi₀vis'
    have := (hinv.start_mem hsvis).1
    rw [hempty] at this
    exact absurd this (List.not_mem_nil start)
  · obtain ⟨j, rfl⟩ : ∃ j, i₀ = j + 1 := ⟨i₀ - 1, by omega⟩
    have hjlt : j < q.length := by omega
    have hjvis : st.vis q[j] = true := by
      have h2 := hmin0 j (by omega)
      simp only [not_and] at h2
      have h3 := h2 hjlt
      simp only [Bool.not_eq_false] at h3
      rwa [List.getD_eq_getElem _ _ hjlt] at h3
    have hadj : Adj m q[j] q[j + 1] := isPathFrom_adj_get hq hi₀lt
    have := (hinv.frontier q[j] q[j + 1] hjvis hadj hi₀vis').1
    rw [hempty] at this
    exact absurd this (List.not_mem_nil _)

/-- Soundness of a found outcome of the loop: the result is a road path
from start to goal whose accumulated length is the reported distance,
and that distance is minimal among all road paths. -/
theorem aStarLoop_found {m : Model} {w : Nat → Nat → α} {hf : Nat → α}
    {start goal : Nat} (hwf : WF m) (hs : start < m.nodes.length)
    (hw : ∀ u x, 0 ≤ w u x) (hcons : ∀ u x, Adj m u x → hf u ≤ w u x + hf x) :
    ∀ (fuel : Nat) (st : SState α), LoopInv m w hf start goal st →
      ∀ {p : List Nat} {d : α}, aStarLoop m w hf goal fuel st = .found p d →
        IsPathFrom m start goal p ∧ d = pathLen w p ∧
          ∀ q, IsPathFrom m start goal q → d ≤ pathLen w q
  | 0, st, hinv, p, d, h => by simp [aStarLoop] at h
  | fuel + 1, st, hinv, p, d, h => by
    rw [aStarLoop] at h
    rcases hpop : popMin (fval st) st.openL with _ | ⟨c, rest⟩
    · rw [hpop] at h
      simp at h
    · rw [hpop] at h
      dsimp only at h
      by_cases hcg : c = goal
      · rw [if_pos hcg] at h
        subst hcg
        have hcmem : c ∈ st.openL :=
          (popMin_perm hpop).mem_iff.2 (List.mem_cons_self ..)
        obtain ⟨pg, hfol, hpath, hlen, hnd, _⟩ := hinv.chain c (.inl hcmem)
        have hplen : pg.length ≤ m.nodes.length :=
          path_length_le hwf hs hpath hnd
        have hwalk : parentWalk st.par m.nodes.length c = pg.reverse :=
          parentWalk_eq hinv.par_start hfol (by omega)
        have hpar : (closeNode st c rest).par = st.par := rfl
        simp only [constructFinalPath, hpar, hwalk, List.reverse_reverse,
          Outcome.found.injEq] at h
        obtain ⟨hp1, hd1⟩ := h
        subst hp1
        subst hd1
        refine ⟨hpath, rfl, ?_⟩
        intro q hq
        rw [hlen]
        exact pop_bound hcons hinv hpop q hq
      · rw [if_neg hcg] at h
        exact aStarLoop_found hwf hs hw hcons fuel _
          (step_inv hw hcons hinv hpop hcg) h

/-- Soundness of a no-path outcome of the loop: no road path connects the
endpoints. -/
theorem aStarLoop_noPath {m : Model} {w : Nat → Nat → α} {hf : Nat → α}
    {start goal : Nat}
    (hw : ∀ u x, 0 ≤ w u x) (hcons : ∀ u x, Adj m u x → hf u ≤ w u x + hf x) :
    ∀ (fuel : Nat) (st : SState α), LoopInv m w hf start goal st →
      aStarLoop m w hf goal fuel st = .noPath →
      ∀ q, ¬ IsPathFrom m start goal q
  | 0, st, hinv, h => by simp [aStarLoop] at h
  | fuel + 1, st, hinv, h => by
    rw [aStarLoop] at h
    rcases hpop : popMin (fval st) st.openL with _ | ⟨c, rest⟩
    · exact open_empty_no_path hinv (popMin_none.1 hpop)
    · rw [hpop] at h
      dsimp only at h
      by_cases hcg : c = goal
      · rw [if_pos hcg] at h
        simp at h
      · rw [if_neg hcg] at h
        exact aStarLoop_noPath hw hcons fuel _
          (step_inv hw hcons hinv hpop hcg) h

/-- With more fuel than unvisited nodes, the loop never exhausts its
budget: every iteration closes a fresh node. -/
theorem aStarLoop_no_fuelOut {m : Model} {w : Nat → Nat → α} {hf : Nat → α}
    {start goal : Nat} (hwf : WF m) (hs : start < m.nodes.length)
    (hw : ∀ u x, 0 ≤ w u x) (hcons : ∀ u x, Adj m u x → hf u ≤ w u x + hf x) :
    ∀ (fuel : Nat) (st : SState α), LoopInv m w hf start goal st →
      unvisCount m.nodes.length st < fuel →
      aStarLoop m w hf goal fuel st ≠ .fuelOut
  | 0, st, _, hlt => absurd hlt (by omega)
  | fuel + 1, st, hinv, hlt => by
    rw [aStarLoop]
    rcases hpop : popMin (fval st) st.openL with _ | ⟨c, rest⟩
    · simp
    · dsimp only
      by_cases hcg : c = goal
      · rw [if_pos hcg]
        simp
      · rw [if_neg hcg]
        have hcmem : c ∈ st.openL :=
          (popMin_perm hpop).mem_iff.2 (List.mem_cons_self ..)
        have hcn : c < m.nodes.length := open_mem_lt hwf hs hinv c hcmem
        have hcv : st.vis c = false := hinv.open_not_vis c hcmem
        have hveq : (expand m w hf c (closeNode st c rest)).vis =
            Function.update st.vis c true := by
          rw [expand, foldl_relax_vis]
          rfl
        have hdec : unvisCount m.nodes.length
            (expand m w hf c (closeNode st c rest)) <
            unvisCount m.nodes.length st := by
          unfold unvisCount
          rw [hveq]
          exact unvisCount_update hcn hcv
        exact aStarLoop_no_fuelOut hwf hs hw hcons fuel _
          (step_inv hw hcons hinv hpop hcg) (by omega)

/-- The number of unvisited nodes is at most the number of nodes. -/
theorem unvisCount_le (n : Nat) (st : SState α) : unvisCount n st ≤ n := by
  unfold unvisCount
  calc ((List.range n).filter fun v => !(st.vis v)).length
      ≤ (List.range n).length := List.length_filter_le _ _
  _ = n := List.length_range n

/-- Soundness of the bundled search `aStar`: a found outcome is a minimal
road path with its true accumulated length; a no-path outcome means no
road path exists; the fuel budget `nodes + 1` is never exhausted. -/
theorem aStar_spec {m : Model} {w : Nat → Nat → α} {hf : Nat → α}
    {start goal : Nat} (h₀ : α) (hwf : WF m) (hs : start < m.nodes.length)
    (hw : ∀ u x, 0 ≤ w u x) (hcons : ∀ u x, Adj m u x → hf u ≤ w u x + hf x) :
    (∀ p d, aStar m w hf h₀ start goal = .found p d →
      IsPathFrom m start goal p ∧ d = pathLen w p ∧
        ∀ q, IsPathFrom m start goal q → d ≤ pathLen w q) ∧
    (aStar m w hf h₀ start goal = .noPath → ∀ q, ¬ IsPathFrom m start goal q) ∧
    aStar m w hf h₀ start goal ≠ .fuelOut := by
  have hinv := initState_inv m w hf h₀ start goal
  refine ⟨?_, ?_, ?_⟩
  · intro p d h
    exact aStarLoop_found hwf hs hw hcons _ _ hinv h
  · intro h
    exact aStarLoop_noPath hw hcons _ _ hinv h
  · apply aStarLoop_no_fuelOut hwf hs hw hcons _ _ hinv
    have := unvisCount_le m.nodes.length (initState h₀ hf start (α := α))
    omega

/-! Euclidean geometry of the unit-square coordinate space. -/

theorem sqDist_cast (a b : MNode) :
    ((sqDist a b : ℚ) : ℝ) = ((a.x : ℝ) - b.x) ^ 2 + ((a.y : ℝ) - b.y) ^ 2 := by
  unfold sqDist
  push_cast
  ring

theorem euclid_eq_abs (a b : MNode) :
    euclid a b = Complex.abs ⟨(a.x : ℝ) - b.x, (a.y : ℝ) - b.y⟩ := by
  rw [euclid, sqDist_cast, Complex.abs_apply, Complex.normSq_mk]
  congr 1
  ring

theorem euclid_nonneg (a b : MNode) : 0 ≤ euclid a b := Real.sqrt_nonneg _

theorem euclid_self (a : MNode) : euclid a a = 0 := by
  rw [euclid_eq_abs]
  have : (⟨(a.x : ℝ) - a.x, (a.y : ℝ) - a.y⟩ : ℂ) = 0 := by
    apply Complex.ext <;> simp
  rw [this]
  simp

theorem euclid_triangle (a b c : MNode) :
    euclid a c ≤ euclid a b + euclid b c := by
  rw [euclid_eq_abs, euclid_eq_abs, euclid_eq_abs]
  have hsum : (⟨(a.x : ℝ) - c.x, (a.y : ℝ) - c.y⟩ : ℂ) =
      (⟨(a.x : ℝ) - b.x, (a.y : ℝ) - b.y⟩ : ℂ) +
        (⟨(b.x : ℝ) - c.x, (b.y : ℝ) - c.y⟩ : ℂ) := by
    apply Complex.ext <;> simp <;> ring
  rw [hsum]
  exact AbsoluteValue.add_le Complex.abs _ _

theorem wE_nonneg (m : Model) : ∀ u x, 0 ≤ wE m u x :=
  fun u x => euclid_nonneg _ _

theorem hE_consistent (m : Model) (goal : Nat) :
    ∀ u x, Adj m u x → calculateHValue m goal u ≤ wE m u x + calculateHValue m goal x := by
  intro u x _
  unfold calculateHValue wE
  exact euclid_triangle _ _ _

/-! Bridging the wrapped `AStarSearch` to the bundled generic search. -/

theorem parentWalk_none {par : Nat → Option Nat} {v : Nat} (h : par v = none) :
    ∀ fuel, parentWalk par fuel v = [v]
  | 0 => rfl
  | fuel + 1 => by simp [parentWalk, h]

theorem AStarSearch_of_found {m : Model} {s g : Nat} {p : List Nat} {d : ℝ}
    (h : aStar m (wE m) (calculateHValue m g) ((floatMax : ℚ) : ℝ) s g =
      .found p d) :
    AStarSearch m s g = .found p ((m.metricScale : ℝ) * d) := by
  unfold AStarSearch
  rw [h]

theorem AStarSearch_of_noPath {m : Model} {s g : Nat}
    (h : aStar m (wE m) (calculateHValue m g) ((floatMax : ℚ) : ℝ) s g = .noPath) :
    AStarSearch m s g = .noPath := by
  unfold AStarSearch
  rw [h]

theorem AStarSearch_noPath_inv {m : Model} {s g : Nat}
    (h : AStarSearch m s g = .noPath) :
    aStar m (wE m) (calculateHValue m g) ((floatMax : ℚ) : ℝ) s g = .noPath := by
  unfold AStarSearch at h
  rcases ho : aStar m (wE m) (calculateHValue m g) ((floatMax : ℚ) : ℝ) s g with
    _ | ⟨p, d⟩ | _
  · rfl
  · rw [ho] at h
    cases h
  · rw [ho] at h
    cases h

theorem AStarSearch_fuelOut_inv {m : Model} {s g : Nat}
    (h : AStarSearch m s g = .fuelOut) :
    aStar m (wE m) (calculateHValue m g) ((floatMax : ℚ) : ℝ) s g = .fuelOut := by
  unfold AStarSearch at h
  rcases ho : aStar m (wE m) (calculateHValue m g) ((floatMax : ℚ) : ℝ) s g with
    _ | ⟨p, d⟩ | _
  · rw [ho] at h
    cases h
  · rw [ho] at h
    cases h
  · rfl

/-- Searching from a node to itself succeeds immediately with the
singleton path and distance zero. -/
theorem astar_self (m : Model) (s : Nat) : AStarSearch m s s = .found [s] 0 := by
  have hloop : aStarLoop m (wE m) (calculateHValue m s) s (m.nodes.length + 1)
      (initState ((floatMax : ℚ) : ℝ) (calculateHValue m s) s) = .found [s] 0 := by
    rw [aStarLoop]
    have hpop : popMin
        (fval (initState ((floatMax : ℚ) : ℝ) (calculateHValue m s) s))
        (initState ((floatMax : ℚ) : ℝ) (calculateHValue m s) s).openL =
        some (s, []) := rfl
    rw [hpop]
    dsimp only
    rw [if_pos rfl]
    have hpar : (closeNode (initState ((floatMax : ℚ) : ℝ)
        (calculateHValue m s) s) s []).par s = none := rfl
    simp [constructFinalPath, parentWalk_none hpar, pathLen]
  have haStar : aStar m (wE m) (calculateHValue m s) ((floatMax : ℚ) : ℝ) s s =
      .found [s] 0 := by
    rw [aStar]
    exact hloop
  have := AStarSearch_of_found haStar
  rwa [mul_zero] at this

/-! The nearest-node scan (`FindClosestNode`). -/

/-- The strictly-improving minimum scan keeps the first-encountered
minimizer. -/
theorem pickMin_go (key : Nat → ℚ) :
    ∀ (l : List Nat) (j : Nat), l.Sorted (· < ·) → (∀ i ∈ l, j < i) →
      ∃ x, l.foldl (fun acc i =>
          match acc with
          | none => some i
          | some j0 => if key i < key j0 then some i else acc) (some j) = some x ∧
        (x = j ∨ x ∈ l) ∧ key x ≤ key j ∧ (x ≠ j → key x < key j) ∧
        (∀ i ∈ l, key x ≤ key i) ∧
        (∀ i, (i = j ∨ i ∈ l) → key i = key x → x ≤ i)
  | [], j, _, _ => by
    refine ⟨j, rfl, .inl rfl, le_refl _, fun h => absurd rfl h, ?_, ?_⟩
    · intro i hi
      cases hi
    · intro i hi hk
      rcases hi with rfl | hi
      · exact le_refl _
      · cases hi
  | i :: l', j, hsort, hgt => by
    obtain ⟨hfirst, hsort'⟩ := List.sorted_cons.1 hsort
    have hji : j < i := hgt i (List.mem_cons_self ..)
    rw [List.foldl_cons]
    dsimp only
    by_cases hki : key i < key j
    · rw [if_pos hki]
      obtain ⟨x, hfold, hmem, hle, _, hmins, hties⟩ :=
        pickMin_go key l' i hsort' hfirst
      refine ⟨x, hfold, ?_, ?_, ?_, ?_, ?_⟩
      · right
        rcases hmem with rfl | hm
        · exact List.mem_cons_self ..
        · exact List.mem_cons_of_mem _ hm
      · exact le_of_lt (lt_of_le_of_lt hle hki)
      · intro _
        exact lt_of_le_of_lt hle hki
      · intro i0 hi0
        rcases List.mem_cons.1 hi0 with rfl | hm
        · exact hle
        · exact hmins i0 hm
      · intro i0 hi0 hk
        rcases hi0 with rfl | hi0
        · exfalso
          rw [hk] at hki
          exact absurd (lt_of_le_of_lt hle hki) (lt_irrefl _)
        · exact hties i0 (List.mem_cons.1 hi0) hk
    · rw [if_neg hki]
      have hgt' : ∀ i' ∈ l', j < i' := fun i' hi' => lt_trans hji (hfirst i' hi')
      obtain ⟨x, hfold, hmem, hle, hstrict, hmins, hties⟩ :=
        pickMin_go key l' j hsort' hgt'
      refine ⟨x, hfold, ?_, hle, hstrict, ?_, ?_⟩
      · rcases hmem with rfl | hm
        · exact .inl rfl
        · exact .inr (List.mem_cons_of_mem _ hm)
      · intro i0 hi0
        rcases List.mem_cons.1 hi0 with rfl | hm
        · exact le_trans hle (not_lt.1 hki)
        · exact hmins i0 hm
      · intro i0 hi0 hk
        rcases hi0 with rfl | hi0
        · exact hties i0 (.inl rfl) hk
        · rcases List.mem_cons.1 hi0 with rfl | hm
          · rcases hmem with rfl | hm2
            · exact le_of_lt hji
            · exfalso
              have hxj : x ≠ j := fun he => by
                rw [he] at hm2
                exact absurd (hgt' j hm2) (lt_irrefl j)
              have h1 : key x < key j := hstrict hxj
              have h2 : key j ≤ key i0 := not_lt.1 hki
              rw [hk] at h2
              exact absurd (lt_of_le_of_lt h2 h1) (lt_irrefl _)
          · exact hties i0 (.inr hm) hk

/-- Membership in the road-connected scan list. -/
theorem mem_scanList {m : Model} {i : Nat} :
    i ∈ (List.range m.nodes.length).filter (roadConnectedB m) ↔
      i < m.nodes.length ∧ RoadConnected m i := by
  rw [List.mem_filter, List.mem_range]
  exact Iff.rfl

/-- The scan list is strictly sorted. -/
theorem scanList_sorted (m : Model) :
    ((List.range m.nodes.length).filter (roadConnectedB m)).Sorted (· < ·) :=
  (List.pairwise_lt_range m.nodes.length).filter _

/-- The full characterization of `FindClosestNode`: on a store with a
road-connected point it returns the first road-connected index minimizing
the squared distance to the query; on a store without one it returns
nothing. -/
theorem findClosestNode_spec (m : Model) (q : MNode) :
    ((∃ i, i < m.nodes.length ∧ RoadConnected m i) →
      ∃ x, findClosestNode m q = some x ∧ x < m.nodes.length ∧
        RoadConnected m x ∧
        (∀ j, j < m.nodes.length → RoadConnected m j →
          sqDist (nodeAt m x) q ≤ sqDist (nodeAt m j) q) ∧
        (∀ j, j < m.nodes.length → RoadConnected m j →
          sqDist (nodeAt m j) q = sqDist (nodeAt m x) q → x ≤ j)) ∧
    ((¬ ∃ i, i < m.nodes.length ∧ RoadConnected m i) →
      findClosestNode m q = none) := by
  constructor
  · rintro ⟨i, hi, hrc⟩
    have hmem : i ∈ (List.range m.nodes.length).filter (roadConnectedB m) :=
      mem_scanList.2 ⟨hi, hrc⟩
    rcases hL : (List.range m.nodes.length).filter (roadConnectedB m) with _ | ⟨i0, L⟩
    · rw [hL] at hmem
      cases hmem
    · have hsort := scanList_sorted m
      rw [hL] at hsort
      obtain ⟨hfirst, hsort'⟩ := List.sorted_cons.1 hsort
      obtain ⟨x, hfold, hxmem, hle, _, hmins, hties⟩ :=
        pickMin_go (fun v => sqDist (nodeAt m v) q) L i0 hsort' hfirst
      have hres : findClosestNode m q = some x := by
        unfold findClosestNode
        rw [hL, List.foldl_cons]
        exact hfold
      have hxscan : x ∈ (List.range m.nodes.length).filter (roadConnectedB m) := by
        rw [hL]
        rcases hxmem with rfl | hm
        · exact List.mem_cons_self ..
        · exact List.mem_cons_of_mem _ hm
      obtain ⟨hxlt, hxrc⟩ := mem_scanList.1 hxscan
      refine ⟨x, hres, hxlt, hxrc, ?_, ?_⟩
      · intro j hj hjrc
        have hjmem : j ∈ (List.range m.nodes.length).filter (roadConnectedB m) :=
          mem_scanList.2 ⟨hj, hjrc⟩
        rw [hL] at hjmem
        rcases List.mem_cons.1 hjmem with rfl | hm
        · exact hle
        · exact hmins j hm
      · intro j hj hjrc hk
        have hjmem : j ∈ (List.range m.nodes.length).filter (roadConnectedB m) :=
          mem_scanList.2 ⟨hj, hjrc⟩
        rw [hL] at hjmem
        exact hties j (List.mem_cons.1 hjmem) hk
  · intro hno
    have hL : (List.range m.nodes.length).filter (roadConnectedB m) = [] := by
      rw [List.filter_eq_nil_iff]
      intro a ha
      intro hra
      exact hno ⟨a, List.mem_range.1 ha, hra⟩
    unfold findClosestNode
    rw [hL]
    rfl

/-! Bridging squared distances to Euclidean distances. -/

theorem sqDist_nn (a b : MNode) : 0 ≤ sqDist a b := by
  unfold sqDist
  positivity

theorem euclid_mono {a b c d : MNode} (h : sqDist a b ≤ sqDist c d) :
    euclid a b ≤ euclid c d := by
  unfold euclid
  exact Real.sqrt_le_sqrt (by exact_mod_cast h)

theorem euclid_inj_sq {a b c d : MNode} (h : euclid a b = euclid c d) :
    sqDist a b = sqDist c d := by
  unfold euclid at h
  have h2 := (Real.sqrt_inj (by exact_mod_cast sqDist_nn a b)
    (by exact_mod_cast sqDist_nn c d)).1 h
  exact_mod_cast h2

/-! The disconnected fixture: node `2` of `splitStore` lies on no road. -/

theorem splitStore_no_adj (x : Nat) : ¬ Adj splitStore x 2 := by
  intro h
  rcases adj_iff.1 h with ⟨r, hr, hl⟩
  have h2 := (listAdj_mem hl).2
  have hr' : r = ⟨0, .Residential⟩ := by
    simpa [splitStore] using hr
  subst hr'
  simp [wayNodes, splitStore] at h2

theorem splitStore_disconnected : ∀ q, ¬ IsPathFrom splitStore 0 2 q := by
  intro q hq
  have hne : q ≠ [] := by rintro rfl; simp [IsPathFrom] at hq
  have hlen : 0 < q.length := List.length_pos.2 hne
  have hlast : q[q.length - 1]? = some 2 := by
    have := hq.2.1
    rwa [List.getLast?_eq_getElem?] at this
  have hhead : q[0]? = some 0 := by
    have := hq.1
    rwa [List.head?_eq_getElem?] at this
  by_cases hone : q.length = 1
  · rw [show q.length - 1 = 0 from by omega] at hlast
    rw [hhead] at hlast
    simp at hlast
  · have h2le : 2 ≤ q.length := by omega
    have hadj := isPathFrom_adj_get hq (i := q.length - 2) (by omega)
    have hb : q.length - 2 + 1 < q.length := by omega
    have h1 : q[q.length - 1]? = some q[q.length - 2 + 1] := by
      rw [show q.length - 1 = q.length - 2 + 1 from by omega]
      exact List.getElem?_eq_getElem hb
    rw [hlast] at h1
    have hval : q[q.length - 2 + 1] = 2 := (Option.some.inj h1).symm
    rw [hval] at hadj
    exact splitStore_no_adj _ hadj

theorem noPath_of_disconnected (m : Model) (start goal : Nat) (hwf : WF m)
    (hs : start < m.nodes.length)
    (hno : ∀ q, ¬ IsPathFrom m start goal q) :
    AStarSearch m start goal = .noPath := by
  obtain ⟨hfound, hnp, hfuel⟩ := aStar_spec ((floatMax : ℚ) : ℝ)
    hwf hs (wE_nonneg m) (hE_consistent m goal)
  rcases ho : aStar m (wE m) (calculateHValue m goal)
      ((floatMax : ℚ) : ℝ) start goal with _ | ⟨p, d⟩ | _
  · exact AStarSearch_of_noPath ho
  · exfalso
    exact hno p (hfound p d ho).1
  · exact absurd ho hfuel

theorem splitStore_noPath : AStarSearch splitStore 0 2 = .noPath :=
  noPath_of_disconnected splitStore 0 2 (by decide) (by decide)
    splitStore_disconnected

/-- The explicit three-node path of the line store. -/
theorem lineStore_path : IsPathFrom lineStore 0 2 [0, 1, 2] :=
  ⟨rfl, rfl, List.chain'_cons.2 ⟨by decide,
    List.chain'_cons.2 ⟨by decide, List.chain'_singleton _⟩⟩⟩

/-! # Claim theorems -/

/-- C1: for every well-formed store and every road-connected pair of
nodes, the A* search returns a path whose reported distance (in meters,
i.e. scaled by the metric scale factor) is at most the scaled length of
every road path between the endpoints — the Euclidean heuristic being
admissible and consistent, the search returns a minimum-cost path. -/
theorem claim_C1_astar_optimal (m : Model) (start goal : Nat)
    (hwf : WF m) (hs : start < m.nodes.length) (hscale : 0 ≤ m.metricScale)
    (hconn : ∃ q, IsPathFrom m start goal q) :
    ∃ p d, AStarSearch m start goal = .found p d ∧
      ∀ q, IsPathFrom m start goal q →
        d ≤ (m.metricScale : ℝ) * pathLen (wE m) q := by
  obtain ⟨hfound, hnp, hfuel⟩ := aStar_spec ((floatMax : ℚ) : ℝ)
    hwf hs (wE_nonneg m) (hE_consistent m goal)
  rcases ho : aStar m (wE m) (calculateHValue m goal) ((floatMax : ℚ) : ℝ)
      start goal with _ | ⟨p, d⟩ | _
  · exfalso
    obtain ⟨q, hq⟩ := hconn
    exact hnp ho q hq
  · obtain ⟨hpath, hd, hmin⟩ := hfound p d ho
    refine ⟨p, (m.metricScale : ℝ) * d, AStarSearch_of_found ho, ?_⟩
    intro q hq
    apply mul_le_mul_of_nonneg_left (hmin q hq)
    exact_mod_cast hscale
  · exact absurd ho hfuel

/-- Witness for C1 on the three-node line store. -/
theorem claim_C1_witness :
    (WF lineStore ∧ 0 < lineStore.nodes.length ∧
      (0 : ℚ) ≤ lineStore.metricScale ∧ IsPathFrom lineStore 0 2 [0, 1, 2]) ∧
    (∃ p d, AStarSearch lineStore 0 2 = .found p d ∧
      ∀ q, IsPathFrom lineStore 0 2 q →
        d ≤ (lineStore.metricScale : ℝ) * pathLen (wE lineStore) q) :=
  ⟨⟨by decide, by decide, by decide, lineStore_path⟩,
    claim_C1_astar_optimal lineStore 0 2 (by decide) (by decide) (by decide)
      ⟨[0, 1, 2], lineStore_path⟩⟩

/-- C2: for every well-formed store, the A* search reports the distinct
`noPath` outcome exactly when no road path connects the endpoints
(equivalently, when the open set exhausts before the goal closes); in
particular for endpoints in disjoint road components it reports `noPath`,
never a partial or zero-length path. -/
theorem claim_C2_no_path_reported (m : Model) (start goal : Nat)
    (hwf : WF m) (hs : start < m.nodes.length) :
    AStarSearch m start goal = .noPath ↔ ¬ ∃ q, IsPathFrom m start goal q := by
  obtain ⟨hfound, hnp, hfuel⟩ := aStar_spec ((floatMax : ℚ) : ℝ)
    hwf hs (wE_nonneg m) (hE_consistent m goal)
  constructor
  · intro h hc
    obtain ⟨q, hq⟩ := hc
    exact hnp (AStarSearch_noPath_inv h) q hq
  · intro hno
    rcases ho : aStar m (wE m) (calculateHValue m goal) ((floatMax : ℚ) : ℝ)
        start goal with _ | ⟨p, d⟩ | _
    · exact AStarSearch_of_noPath ho
    · exfalso
      exact hno ⟨p, (hfound p d ho).1⟩
    · exact absurd ho hfuel

/-- Witness for C2 on the store whose node `2` is road-disconnected. -/
theorem claim_C2_witness :
    (WF splitStore ∧ 0 < splitStore.nodes.length) ∧
    (AStarSearch splitStore 0 2 = .noPath ↔
      ¬ ∃ q, IsPathFrom splitStore 0 2 q) :=
  ⟨⟨by decide, by decide⟩,
    claim_C2_no_path_reported splitStore 0 2 (by decide) (by decide)⟩

/-- C3: every successful search returns a path ordered start → goal (it
is a road path whose head is the start and whose last node is the goal),
and the reported distance is the sum of the Euclidean distances between
consecutive path nodes in unit-square coordinates multiplied by the
metric scale factor recorded at load time. -/
theorem claim_C3_path_reconstruction (m : Model) (start goal : Nat)
    (hwf : WF m) (hs : start < m.nodes.length)
    (hconn : ∃ q, IsPathFrom m start goal q) :
    ∃ p d, AStarSearch m start goal = .found p d ∧
      p.head? = some start ∧ p.getLast? = some goal ∧
      IsPathFrom m start goal p ∧
      d = (m.metricScale : ℝ) * pathLen (wE m) p := by
  obtain ⟨hfound, hnp, hfuel⟩ := aStar_spec ((floatMax : ℚ) : ℝ)
    hwf hs (wE_nonneg m) (hE_consistent m goal)
  rcases ho : aStar m (wE m) (calculateHValue m goal) ((floatMax : ℚ) : ℝ)
      start goal with _ | ⟨p, d⟩ | _
  · exfalso
    obtain ⟨q, hq⟩ := hconn
    exact hnp ho q hq
  · obtain ⟨hpath, hd, _⟩ := hfound p d ho
    exact ⟨p, (m.metricScale : ℝ) * d, AStarSearch_of_found ho, hpath.1,
      hpath.2.1, hpath, by rw [hd]⟩
  · exact absurd ho hfuel

/-- Witness for C3 on the three-node line store. -/
theorem claim_C3_witness :
    (WF lineStore ∧ 0 < lineStore.nodes.length ∧
      IsPathFrom lineStore 0 2 [0, 1, 2]) ∧
    (∃ p d, AStarSearch lineStore 0 2 = .found p d ∧
      p.head? = some 0 ∧ p.getLast? = some 2 ∧ IsPathFrom lineStore 0 2 p ∧
      d = (lineStore.metricScale : ℝ) * pathLen (wE lineStore) p) :=
  ⟨⟨by decide, by decide, lineStore_path⟩,
    claim_C3_path_reconstruction lineStore 0 2 (by decide) (by decide)
      ⟨[0, 1, 2], lineStore_path⟩⟩

/-- C4: on a store containing at least one road-connected point,
`FindClosestNode` returns a road-connected node index minimizing the
Euclidean distance to the query, ties broken by first-encountered
(smallest-index) order; on a store with no road-connected point the
result is absent. -/
theorem claim_C4_find_closest_node (m : Model) (q : MNode) :
    ((∃ i, i < m.nodes.length ∧ RoadConnected m i) →
      ∃ x, findClosestNode m q = some x ∧ x < m.nodes.length ∧
        RoadConnected m x ∧
        (∀ j, j < m.nodes.length → RoadConnected m j →
          euclid (nodeAt m x) q ≤ euclid (nodeAt m j) q) ∧
        (∀ j, j < m.nodes.length → RoadConnected m j →
          euclid (nodeAt m j) q = euclid (nodeAt m x) q → x ≤ j)) ∧
    ((¬ ∃ i, i < m.nodes.length ∧ RoadConnected m i) →
      findClosestNode m q = none) := by
  obtain ⟨h1, h2⟩ := findClosestNode_spec m q
  refine ⟨?_, h2⟩
  intro hex
  obtain ⟨x, hres, hlt, hrc, hmins, hties⟩ := h1 hex
  refine ⟨x, hres, hlt, hrc, ?_, ?_⟩
  · intro j hj hjrc
    exact euclid_mono (hmins j hj hjrc)
  · intro j hj hjrc hk
    exact hties j hj hjrc (euclid_inj_sq hk)

/-- Witness for C4 on the split store with query `(0,0)`. -/
theorem claim_C4_witness :
    (∃ i, i < splitStore.nodes.length ∧ RoadConnected splitStore i) ∧
    (∃ x, findClosestNode splitStore ⟨0, 0⟩ = some x ∧
      x < splitStore.nodes.length ∧ RoadConnected splitStore x ∧
      (∀ j, j < splitStore.nodes.length → RoadConnected splitStore j →
        euclid (nodeAt splitStore x) ⟨0, 0⟩ ≤ euclid (nodeAt splitStore j) ⟨0, 0⟩) ∧
      (∀ j, j < splitStore.nodes.length → RoadConnected splitStore j →
        euclid (nodeAt splitStore j) ⟨0, 0⟩ = euclid (nodeAt splitStore x) ⟨0, 0⟩ →
          x ≤ j)) :=
  ⟨⟨0, by decide, by decide⟩,
    (claim_C4_find_closest_node splitStore ⟨0, 0⟩).1 ⟨0, by decide, by decide⟩⟩

/-- C5: after the node-to-road index is built, for every road index and
every point index on that road's way, the index entry of the point exists
(is non-empty) and contains that road.  (In this embedding the index is a
pure function of the immutable store, so it cannot be mutated
afterward.) -/
theorem claim_C5_index_completeness (m : Model) (ri : Nat)
    (hri : ri < m.roads.length) (p : Nat)
    (hp : p ∈ wayNodes m ((m.roads.getD ri ⟨0, .Invalid⟩).way)) :
    ri ∈ node_to_road m p ∧ node_to_road m p ≠ [] := by
  have h := mem_node_to_road.2 ⟨hri, hp⟩
  exact ⟨h, List.ne_nil_of_mem h⟩

/-- Witness for C5 on the line store: road `0` passes through point `1`. -/
theorem claim_C5_witness :
    (0 < lineStore.roads.length ∧
      (1 : Nat) ∈ wayNodes lineStore ((lineStore.roads.getD 0 ⟨0, .Invalid⟩).way)) ∧
    (0 ∈ node_to_road lineStore 1 ∧ node_to_road lineStore 1 ≠ []) :=
  ⟨⟨by decide, by decide⟩,
    claim_C5_index_completeness lineStore 0 (by decide) 1 (by decide)⟩

/-- C6: neighbor discovery populates the adjacency set of `c` with
exactly the nodes adjacent to an occurrence of `c` on some road (its
predecessors and successors on the roads through `c`), excluding `c`
itself and excluding every node whose visited flag is already true. -/
theorem claim_C6_find_neighbors (m : Model) (vis : Nat → Bool) (c v : Nat) :
    v ∈ findNeighborsOf m vis c ↔ Adj m c v ∧ v ≠ c ∧ vis v = false :=
  mem_findNeighborsOf

/-- Witness for C6: on the line store, node `0` is discovered as a
neighbor of node `1` when unvisited. -/
theorem claim_C6_witness :
    (Adj lineStore 1 0 ∧ (0 : Nat) ≠ 1 ∧ (fun _ : Nat => false) 0 = false) ∧
    0 ∈ findNeighborsOf lineStore (fun _ => false) 1 :=
  ⟨⟨by decide, by decide, rfl⟩,
    (claim_C6_find_neighbors lineStore (fun _ => false) 1 0).2
      ⟨by decide, by decide, rfl⟩⟩

/-- C7: store construction from a byte buffer that is empty or decodes to
no usable records fails fast with a parse error surfaced to the caller,
and no (partial) store is returned. -/
theorem claim_C7_build_store_fails (decode : List Nat → List Rec)
    (bytes : List Nat)
    (h : bytes = [] ∨ (decode bytes).filter usableRec = []) :
    (∃ e, buildStore decode bytes = .error e) ∧
      ∀ s, buildStore decode bytes ≠ .ok s := by
  have herr : ∃ e, buildStore decode bytes = .error e := by
    unfold buildStore
    rcases h with h | h
    · subst h
      exact ⟨"empty input buffer", by simp⟩
    · by_cases hb : bytes.isEmpty
      · rw [if_pos hb]
        exact ⟨"empty input buffer", rfl⟩
      · rw [if_neg hb]
        refine ⟨"no usable records", ?_⟩
        simp only [h]
        rfl
  obtain ⟨e, he⟩ := herr
  refine ⟨⟨e, he⟩, ?_⟩
  intro s hx
  rw [he] at hx
  cases hx

/-- Witness for C7: the empty byte buffer. -/
theorem claim_C7_witness :
    (([] : List Nat) = [] ∨
      ((fun _ : List Nat => ([] : List Rec)) []).filter usableRec = []) ∧
    ((∃ e, buildStore (fun _ => []) [] = .error e) ∧
      ∀ s, buildStore (fun _ => []) [] ≠ .ok s) :=
  ⟨.inl rfl, claim_C7_build_store_fails (fun _ => []) [] (.inl rfl)⟩

/-- C8: every Search Node has, at construction (the member initializers
of `RouteModel::Node`) and after the between-searches reset, cost-from-
start `g = 0`, heuristic `h` equal to the maximum representable float,
visited flag false, no best-predecessor, and an empty neighbor set. -/
theorem claim_C8_node_defaults (x y : ℚ) (nd : RMNode) :
    ({ x := x, y := y } : RMNode).g_value = 0 ∧
    ({ x := x, y := y } : RMNode).h_value = floatMax ∧
    ({ x := x, y := y } : RMNode).visited = false ∧
    ({ x := x, y := y } : RMNode).parent = none ∧
    ({ x := x, y := y } : RMNode).neighbors = [] ∧
    (resetNode nd).g_value = 0 ∧ (resetNode nd).h_value = floatMax ∧
    (resetNode nd).visited = false ∧ (resetNode nd).parent = none ∧
    (resetNode nd).neighbors = [] :=
  ⟨rfl, rfl, rfl, rfl, rfl, rfl, rfl, rfl, rfl, rfl⟩

/-- C9: on every well-formed store the A* search terminates — the
iteration budget `nodes + 1` is never exhausted, because every iteration
closes one open (hence unvisited) node and closed nodes are never
reinserted into the open set. -/
theorem claim_C9_termination (m : Model) (start goal : Nat)
    (hwf : WF m) (hs : start < m.nodes.length) :
    AStarSearch m start goal ≠ .fuelOut := by
  obtain ⟨_, _, hfuel⟩ := aStar_spec ((floatMax : ℚ) : ℝ)
    hwf hs (wE_nonneg m) (hE_consistent m goal)
  intro h
  exact hfuel (AStarSearch_fuelOut_inv h)

/-- Witness for C9 on the line store. -/
theorem claim_C9_witness :
    (WF lineStore ∧ 0 < lineStore.nodes.length) ∧
    AStarSearch lineStore 0 2 ≠ .fuelOut :=
  ⟨⟨by decide, by decide⟩,
    claim_C9_termination lineStore 0 2 (by decide) (by decide)⟩

/-- C10: `GetDistance` returns `0.0` on a freshly constructed planner
(the member initializer) and after a search that found no route (the
distance member is left untouched), while a genuine zero-length route
(start = goal) also reports distance `0` — so at this interface a search
failure is indistinguishable from a zero-length path. -/
theorem claim_C10_distance_zero (m : Model) (start goal : Nat) :
    GetDistance ({} : RoutePlanner) = 0 ∧
    (AStarSearch m start goal = .noPath →
      GetDistance (runAStarSearch m start goal {}) = 0) ∧
    ∃ m2 s2 p2, AStarSearch m2 s2 s2 = .found p2 0 := by
  refine ⟨rfl, ?_, ⟨lineStore, 0, [0], astar_self lineStore 0⟩⟩
  intro h
  unfold runAStarSearch
  rw [h]
  rfl

/-- Witness for C10: the failed search on the split store leaves the
reported distance at zero. -/
theorem claim_C10_witness :
    AStarSearch splitStore 0 2 = .noPath ∧
      GetDistance (runAStarSearch splitStore 0 2 {}) = 0 :=
  ⟨splitStore_noPath,
    (claim_C10_distance_zero splitStore 0 2).2.1 splitStore_noPath⟩
